import Mathlib

/-
Verification development for the ur5lego motion core: the joint-space trajectory sender
(trajectory_planner.cpp) and the numerical inverse kinematics (inverse_kinematics.cpp).

Conventions of the embedding.
* Values are rationals. Floating-point rounding is modelled where a result below depends on
  it: the cast to float of the positions that are published, the double additions and
  subtractions of the angle-wrapping loops, and the halving of the line-search scale alpha
  (functions toFloat and toDouble, round to nearest with ties to even). All other arithmetic,
  the running time of the trajectory loop included, is exact; statements that rest on this
  say so.
* Every while loop is a recursive function with a fuel argument that returns an Option;
  none means the loop was still running when the fuel was used up. Results do not depend on
  the fuel once it suffices (the mono lemmas).
* Forward kinematics, the frame Jacobian, errorInSO3, euler_to_rotation_matrix, matrixToRpy
  and the matrix inverse are parameters (structure Kinematics).
* Norm comparisons are written on squared norms.
-/

namespace Ur5lego

/-- Joint-space vector of the six-axis arm (the source's six-entry Eigen vector). -/
abbrev JointVec := Fin 6 → ℚ

/-- Tolerance 1e-6 declared locally in both the trajectory sender and the IK solver. -/
def eps : ℚ := 1 / 1000000

/-- Nearest integer to x, a tie going to the even neighbour. -/
def roundHalfEven (x : ℚ) : ℤ :=
  if x - ⌊x⌋ < 1 / 2 then ⌊x⌋
  else if 1 / 2 < x - ⌊x⌋ then ⌊x⌋ + 1
  else if ⌊x⌋ % 2 = 0 then ⌊x⌋ else ⌊x⌋ + 1

/-- Binary logarithm of a positive natural number, rounded down (bitLog n n is the position of
the leading bit of n); the first argument bounds the recursion. -/
def bitLog : Nat → Nat → Nat
  | 0, _ => 0
  | fuel + 1, n => if n < 2 then 0 else bitLog fuel (n / 2) + 1

/-- The exponent e with 2^e ≤ |x| < 2^(e+1) of a nonzero rational, found from the leading
bits of its numerator and denominator. -/
def floorLog2 (x : ℚ) : ℤ :=
  if (2 : ℚ) ^ ((bitLog x.num.natAbs x.num.natAbs : ℤ) - (bitLog x.den x.den : ℤ)) ≤ |x| then
    (bitLog x.num.natAbs x.num.natAbs : ℤ) - (bitLog x.den x.den : ℤ)
  else (bitLog x.num.natAbs x.num.natAbs : ℤ) - (bitLog x.den x.den : ℤ) - 1

/-- Rounding of an exact value to the binary floating-point format with a p-bit significand
and least normal exponent emin, to nearest with ties to even (the default rounding of IEEE
754): the value is rounded to a whole multiple of the spacing 2^(e - (p - 1)), e being its
exponent, or emin for subnormal values. Overflow to infinity is not modelled, so the result
is meaningful for magnitudes below the largest finite value of the format. -/
def roundToBinary (p : ℕ) (emin : ℤ) (x : ℚ) : ℚ :=
  if x = 0 then 0
  else (roundHalfEven (x / 2 ^ (max (floorLog2 x) emin - ((p : ℤ) - 1))) : ℚ)
    * 2 ^ (max (floorLog2 x) emin - ((p : ℤ) - 1))

/-- Rounding to double precision (53-bit significand, least normal exponent -1022). -/
def toDouble (x : ℚ) : ℚ := roundToBinary 53 (-1022) x

/-- Rounding to single precision (24-bit significand, least normal exponent -126): the cast
(float) applied to a double. -/
def toFloat (x : ℚ) : ℚ := roundToBinary 24 (-126) x

/-- Modelled from the spec: the helper that fits the quintic is declared in math_tools.h,
which is not part of the available sources. The spec describes it as the degree-five
polynomial with position start_pos at time 0 and end_pos at time tf and zero velocity and
acceleration at both ends; these are the six coefficients c0..c5 of that polynomial. -/
def fifthOrderPolynomialTrajectory (tf start_pos end_pos : ℚ) : Fin 6 → ℚ :=
  ![start_pos, 0, 0,
    10 * (end_pos - start_pos) / tf ^ 3,
    -15 * (end_pos - start_pos) / tf ^ 4,
    6 * (end_pos - start_pos) / tf ^ 5]

/-- Largest entry of a six-vector (Eigen maxCoeff). -/
def maxCoeff (v : JointVec) : ℚ :=
  max (v 0) (max (v 1) (max (v 2) (max (v 3) (max (v 4) (v 5)))))

/-- Smallest entry of a six-vector (Eigen minCoeff). -/
def minCoeff (v : JointVec) : ℚ :=
  min (v 0) (min (v 1) (min (v 2) (min (v 3) (min (v 4) (v 5)))))

/-- One pass of the while body: the values of the loop variables q, v and a after the for loop
over the joints. What is published in that pass is send_joint_positions of q. -/
structure Sample where
  q : JointVec
  v : JointVec
  a : JointVec

/-- Guard of the while loop in computeAndSendTrajectory. -/
def notArrived (q qf : JointVec) : Prop :=
  maxCoeff (q - qf) > eps ∨ -1 * minCoeff (q - qf) > eps

instance instDecidableNotArrived (q qf : JointVec) : Decidable (notArrived q qf) :=
  inferInstanceAs (Decidable (_ ∨ _))

/-- Body of the for loop over the six joints: coefficients are fitted from the current
position q[i], then position, velocity and acceleration are evaluated at the running time. -/
def trajectoryStep (t : ℚ) (qf : JointVec) (time : ℚ) (q : JointVec) : Sample where
  q := fun i =>
    let c := fifthOrderPolynomialTrajectory t (q i) (qf i)
    c 0 + c 1 * time + c 2 * time ^ 2 + c 3 * time ^ 3 + c 4 * time ^ 4 + c 5 * time ^ 5
  v := fun i =>
    let c := fifthOrderPolynomialTrajectory t (q i) (qf i)
    c 1 + 2 * c 2 * time + 3 * c 3 * time ^ 2 + 4 * c 4 * time ^ 3 + 5 * c 5 * time ^ 4
  a := fun i =>
    let c := fifthOrderPolynomialTrajectory t (q i) (qf i)
    2 * c 2 + 6 * c 3 * time + 12 * c 4 * time ^ 2 + 20 * c 5 * time ^ 3

/-- The while loop of computeAndSendTrajectory. The state is the position vector q and the
running time; the result lists the passes in the order they are made, one command being
published per pass. The fuel bounds the number of guard evaluations, none meaning the loop is
still running when it is used up. The running time is the exact sum time + dt; the source
keeps time and dt in single precision, which gives the same values whenever dt and its
multiples are floats (for example dt a power of two), as in every run evaluated below. -/
def trajectoryLoop (t : ℚ) (qf : JointVec) (dt : ℚ) : Nat → JointVec → ℚ → Option (List Sample)
  | 0, _, _ => none
  | fuel + 1, q, time =>
    if notArrived q qf then
      let s := trajectoryStep t qf time q
      (trajectoryLoop t qf dt fuel s.q (time + dt)).map (fun rest => s :: rest)
    else some []

/-- computeAndSendTrajectory: dt = t/steps, time starts at 0 and q starts at qi. -/
def computeAndSendTrajectory (qi qf : JointVec) (t : ℚ) (steps : ℤ) (fuel : Nat) :
    Option (List Sample) :=
  trajectoryLoop t qf (t / (steps : ℚ)) fuel qi 0

/-- The running time of the source after k passes: time starts at 0 and every pass adds
dt = t/steps, both variables being kept in single precision. -/
def floatClock (t : ℚ) (steps : ℤ) (k : Nat) : ℚ :=
  (fun time => toFloat (time + toFloat (t / (steps : ℚ))))^[k] 0

/-- send_joint_positions: each entry of the command is the position cast to float. -/
def send_joint_positions (q : JointVec) : JointVec := fun i => toFloat (q i)

/-- The commands published during a run, in order. -/
def published (ss : List Sample) : List JointVec := ss.map (fun s => send_joint_positions s.q)

/-- Value at the given time of the one quintic fitted to (qi, qf, t), as the spec words it. -/
def quinticAt (t qi qf time : ℚ) : ℚ :=
  let c := fifthOrderPolynomialTrajectory t qi qf
  c 0 + c 1 * time + c 2 * time ^ 2 + c 3 * time ^ 3 + c 4 * time ^ 4 + c 5 * time ^ 5

/-- Normalised quintic blend 10x^3 - 15x^4 + 6x^5. -/
def blend (x : ℚ) : ℚ := 10 * x ^ 3 - 15 * x ^ 4 + 6 * x ^ 5

/-- Cartesian three-vector (position, or roll-pitch-yaw angles). -/
abbrev Vec3 := Fin 3 → ℚ

/-- Rotation matrix. -/
abbrev Mat3 := Matrix (Fin 3) (Fin 3) ℚ

/-- Six by six matrix (the frame Jacobian of the six-joint arm). -/
abbrev Mat6 := Matrix (Fin 6) (Fin 6) ℚ

/-- Shrink factor of the line search. -/
def beta : ℚ := 1 / 2

/-- Cap on the outer iterations of the solver. -/
def max_iter : Nat := 20

/-- Damping constant 1e-8 added to the Jacobian before inversion. -/
def lambda : ℚ := 1 / 100000000

/-- Number of sub-steps of the coarse-to-fine stepper. -/
def n_steps : Nat := 4

/-- The constant M_PI of math.h: the double nearest to pi, which is this dyadic rational. -/
def M_PI : ℚ := 884279719003555 / 281474976710656

/-- What the solver asks of its collaborators, taken as parameters: forward kinematics of the
ee_link frame (translation and rotation of the placement) and its frame Jacobian from the
kinematics library, the helpers errorInSO3 and euler_to_rotation_matrix declared in
math_tools.h (not part of the available sources), the library conversion matrixToRpy, and
the matrix inverse of the linear-algebra library. The model has six velocity variables. -/
structure Kinematics where
  translation : JointVec → Vec3
  rotation : JointVec → Mat3
  computeFrameJacobian : JointVec → Mat6
  errorInSO3 : Mat3 → Mat3 → Vec3
  euler_to_rotation_matrix : Vec3 → Mat3
  matrixToRpy : Mat3 → Vec3
  inverse : Mat6 → Mat6

/-- Squared Euclidean norm. The source compares norms; with exact numbers and a nonnegative
bound c, norm v < c is the same as squaredNorm v < c^2, and norm u < norm v the same as
squaredNorm u < squaredNorm v, so every comparison below is written on squared norms. -/
def squaredNorm {n : Nat} (v : Fin n → ℚ) : ℚ := ∑ i, v i * v i

/-- Spatial error: position error stacked over the SO(3) orientation error. -/
def e_bar (env : Kinematics) (target_position : Vec3) (target_orientation : Mat3)
    (q : JointVec) : JointVec :=
  let p : Vec3 := target_position - env.translation q
  let o : Vec3 := env.errorInSO3 (env.rotation q) target_orientation
  ![p 0, p 1, p 2, o 0, o 1, o 2]

/-- The test grad.norm() < eps at a configuration, grad being the Jacobian transpose times
the spatial error. -/
def gradientTest (env : Kinematics) (target_position : Vec3) (target_orientation : Mat3)
    (q : JointVec) : Prop :=
  squaredNorm ((env.computeFrameJacobian q).transpose.mulVec
    (e_bar env target_position target_orientation q)) < eps ^ 2

instance instDecidableGradientTest (env : Kinematics) (tp : Vec3) (Rt : Mat3) (q : JointVec) :
    Decidable (gradientTest env tp Rt q) :=
  inferInstanceAs (Decidable (_ < _))

/-- The test e_bar_q0.norm() > 0.1 at a configuration. -/
def errorExceeds (env : Kinematics) (target_position : Vec3) (target_orientation : Mat3)
    (q : JointVec) : Prop :=
  squaredNorm (e_bar env target_position target_orientation q) > (1 / 10) ^ 2

instance instDecidableErrorExceeds (env : Kinematics) (tp : Vec3) (Rt : Mat3) (q : JointVec) :
    Decidable (errorExceeds env tp Rt q) :=
  inferInstanceAs (Decidable (_ > _))

/-- Step direction dq = (jacobian + lambda * Identity).inverse() * e_bar_q0. -/
def stepDirection (env : Kinematics) (target_position : Vec3) (target_orientation : Mat3)
    (q0 : JointVec) : JointVec :=
  (env.inverse (env.computeFrameJacobian q0 + lambda • (1 : Mat6))).mulVec
    (e_bar env target_position target_orientation q0)

/-- The inner while(true) loop. It proposes q1 = q0 + dq * alpha; when the error norm at q1 is
larger than at q0 (improvement < 0) alpha is multiplied by beta and the loop repeats,
otherwise q1 is accepted and alpha is reset to 1. The variable alpha is a double: the product
alpha * beta is rounded to double, which is exact until it underflows to 0. The loop has no
cap of its own: none means the fuel ran out while it was still shrinking alpha. -/
def lineSearch (env : Kinematics) (target_position : Vec3) (target_orientation : Mat3)
    (q0 e_bar_q0 dq : JointVec) : Nat → ℚ → Option (JointVec × ℚ)
  | 0, _ => none
  | fuel + 1, alpha =>
    let q1 := q0 + alpha • dq
    let e_bar_q1 := e_bar env target_position target_orientation q1
    if squaredNorm e_bar_q0 < squaredNorm e_bar_q1 then
      lineSearch env target_position target_orientation q0 e_bar_q0 dq fuel
        (toDouble (alpha * beta))
    else some (q1, 1)

/-- State of the solver when its outer loop is left. The field visited is a record, not
program state: the configuration q0 held at the start of each outer iteration, in order. -/
structure SolverRun where
  q0 : JointVec
  success : Bool
  out_of_workspace : Bool
  niter : Nat
  visited : List JointVec

/-- The outer loop while(niter < max_iter); the first argument counts max_iter - niter. -/
def solverLoop (env : Kinematics) (target_position : Vec3) (target_orientation : Mat3)
    (fuel : Nat) : Nat → Nat → JointVec → ℚ → Option SolverRun
  | 0, niter, q0, _ => some ⟨q0, false, false, niter, []⟩
  | remaining + 1, niter, q0, alpha =>
    if gradientTest env target_position target_orientation q0 then
      some ⟨q0, true, decide (errorExceeds env target_position target_orientation q0), niter,
        [q0]⟩
    else
      match lineSearch env target_position target_orientation q0
          (e_bar env target_position target_orientation q0)
          (stepDirection env target_position target_orientation q0) fuel alpha with
      | none => none
      | some (q1, alpha1) =>
        (solverLoop env target_position target_orientation fuel remaining (niter + 1) q1
          alpha1).map (fun r => { r with visited := q0 :: r.visited })

/-- The update q0[i] -= 2*M_PI: a double subtraction, rounded to double (2*M_PI itself is an
exact double). -/
def subTwoPi (x : ℚ) : ℚ := toDouble (x - 2 * M_PI)

/-- The update q0[i] += 2*M_PI: a double addition, rounded to double. -/
def addTwoPi (x : ℚ) : ℚ := toDouble (x + 2 * M_PI)

/-- The loop while(q0[i] >= 2*M_PI) q0[i] -= 2*M_PI. -/
def wrapDown : Nat → ℚ → Option ℚ
  | 0, _ => none
  | fuel + 1, x => if x ≥ 2 * M_PI then wrapDown fuel (subTwoPi x) else some x

/-- The loop while(q0[i] <= -2*M_PI) q0[i] += 2*M_PI. -/
def wrapUp : Nat → ℚ → Option ℚ
  | 0, _ => none
  | fuel + 1, x => if x ≤ -2 * M_PI then wrapUp fuel (addTwoPi x) else some x

/-- Both wrapping loops applied to one joint angle. -/
def normalizeAngle (fuel : Nat) (x : ℚ) : Option ℚ :=
  (wrapDown fuel x).bind (wrapUp fuel)

/-- The for loop over the joints that wraps every angle. -/
def normalizeAngles (fuel : Nat) (q : JointVec) : Option JointVec :=
  if h : ∀ i, (normalizeAngle fuel (q i)).isSome = true then
    some (fun i => (normalizeAngle fuel (q i)).get (h i))
  else none

/-- The solver inverse_kinematics_: outer loop from the seed with alpha = 1 and niter = 0,
then angle wrapping, then the pair (q0, success and not out_of_workspace). The fuel bounds
each inner while loop; none means some inner loop did not finish within it. -/
def inverse_kinematics_ (env : Kinematics) (fuel : Nat) (target_position : Vec3)
    (target_orientation_rpy : Vec3) (q0 : JointVec) : Option (JointVec × Bool) :=
  match solverLoop env target_position (env.euler_to_rotation_matrix target_orientation_rpy)
      fuel max_iter 0 q0 1 with
  | none => none
  | some r =>
    match normalizeAngles fuel r.q0 with
    | none => none
    | some q => some (q, r.success && !r.out_of_workspace)

/-- Arguments of one call of inverse_kinematics_ made by the stepper. -/
structure IkCall where
  position : Vec3
  orientation : Vec3
  seed : JointVec

/-- The for loop over the sub-steps of inverse_kinematics_without_cache; the first argument
counts the sub-steps left. The first component of the result records the calls of
inverse_kinematics_ in the order they are made, the second is the returned pair (none when a
call did not return). -/
def stepperLoop (env : Kinematics) (fuel : Nat) (step_size : Fin 6 → ℚ) :
    Nat → Vec3 → Vec3 → JointVec → List IkCall × Option (JointVec × Bool)
  | 0, _, _, q => ([], some (q, true))
  | n + 1, position_sofar, orientation_sofar, q =>
    let position_sofar : Vec3 := ![position_sofar 0 + step_size 0,
      position_sofar 1 + step_size 1, position_sofar 2 + step_size 2]
    let orientation_sofar : Vec3 := ![orientation_sofar 0 + step_size 3,
      orientation_sofar 1 + step_size 4, orientation_sofar 2 + step_size 5]
    match inverse_kinematics_ env fuel position_sofar orientation_sofar q with
    | none => ([⟨position_sofar, orientation_sofar, q⟩], none)
    | some ikresult =>
      if ikresult.2 = false then ([⟨position_sofar, orientation_sofar, q⟩], some (q, false))
      else
        let r := stepperLoop env fuel step_size n position_sofar orientation_sofar ikresult.1
        (⟨position_sofar, orientation_sofar, q⟩ :: r.1, r.2)

/-- The stepper with its record of calls: start pose from forward kinematics at q0, the six
step sizes, then the loop over n_steps sub-steps. -/
def inverse_kinematics_without_cache_traced (env : Kinematics) (fuel : Nat)
    (target_position target_orientation_rpy : Vec3) (q0 : JointVec) :
    List IkCall × Option (JointVec × Bool) :=
  let position_sofar := env.translation q0
  let orientation_sofar := env.matrixToRpy (env.rotation q0)
  let step_size : Fin 6 → ℚ :=
    ![(target_position 0 - position_sofar 0) / (n_steps : ℚ),
      (target_position 1 - position_sofar 1) / (n_steps : ℚ),
      (target_position 2 - position_sofar 2) / (n_steps : ℚ),
      (target_orientation_rpy 0 - orientation_sofar 0) / (n_steps : ℚ),
      (target_orientation_rpy 1 - orientation_sofar 1) / (n_steps : ℚ),
      (target_orientation_rpy 2 - orientation_sofar 2) / (n_steps : ℚ)]
  stepperLoop env fuel step_size n_steps position_sofar orientation_sofar q0

/-- The stepper inverse_kinematics_without_cache. -/
def inverse_kinematics_without_cache (env : Kinematics) (fuel : Nat)
    (target_position target_orientation_rpy : Vec3) (q0 : JointVec) :
    Option (JointVec × Bool) :=
  (inverse_kinematics_without_cache_traced env fuel target_position target_orientation_rpy q0).2

/-- The call of inverse_kinematics_ with the recorded arguments. -/
def IkCall.run (env : Kinematics) (fuel : Nat) (c : IkCall) : Option (JointVec × Bool) :=
  inverse_kinematics_ env fuel c.position c.orientation c.seed

/-- A rational orientation error for example models: half the axial vector of the
skew-symmetric part of Rt * R^T, which vanishes when the two rotations agree. -/
def skewError (R Rt : Mat3) : Vec3 :=
  ![((Rt * R.transpose) 2 1 - (Rt * R.transpose) 1 2) / 2,
    ((Rt * R.transpose) 0 2 - (Rt * R.transpose) 2 0) / 2,
    ((Rt * R.transpose) 1 0 - (Rt * R.transpose) 0 1) / 2]

/-- Example model: joint 0 slides the end effector along x with the given gain, the other
joints do nothing and the orientation is fixed at the identity. Its Jacobian is the
derivative of its forward kinematics, and inverse inverts diagonal matrices, which is all the
solver asks of it on this model. Only the zero orientation target is used with it. -/
def slideModel (gain : ℚ) : Kinematics where
  translation q := ![gain * q 0, 0, 0]
  rotation _ := 1
  computeFrameJacobian _ := Matrix.diagonal ![gain, 0, 0, 0, 0, 0]
  errorInSO3 := skewError
  euler_to_rotation_matrix _ := 1
  matrixToRpy _ := 0
  inverse M := Matrix.diagonal (fun i => (M i i)⁻¹)

/-- The calls of inverse_kinematics_ made by inverse_kinematics_without_cache, in order. -/
def stepperCalls (env : Kinematics) (fuel : Nat) (target_position target_orientation_rpy : Vec3)
    (q0 : JointVec) : List IkCall :=
  (inverse_kinematics_without_cache_traced env fuel target_position target_orientation_rpy q0).1

/-- Worked example: the unit-gain slide model asked to reach x = 1 from the zero seed. -/
def demoSolve : JointVec × Bool :=
  (inverse_kinematics_ (slideModel 1) 5 ![1, 0, 0] 0 0).getD (0, false)

/-- Worked example: the same model from a seed whose joints 0 and 1 are 7 and -7 radians. -/
def demoWrapped : JointVec × Bool :=
  (inverse_kinematics_ (slideModel 1) 5 ![1, 0, 0] 0 ![7, -7, 0, 0, 0, 0]).getD (0, false)

/-- Worked example: the fourth call of the solver made by the stepper on the unit-gain slide
model with target x = 1 from the zero seed. -/
def demoFourthCall : IkCall :=
  ((stepperCalls (slideModel 1) 5 ![1, 0, 0] 0 0)[3]?).getD ⟨0, 0, 0⟩

/-- What holds of the state in which the outer loop is left, started with the given number
of iterations remaining. -/
structure LoopExit (env : Kinematics) (tp : Vec3) (Rt : Mat3) (rem niter : Nat)
    (r : SolverRun) : Prop where
  visited_le : r.visited.length ≤ rem
  niter_le : r.niter ≤ niter + rem
  converged : r.success = true →
    r.q0 ∈ r.visited ∧ gradientTest env tp Rt r.q0 ∧
    (r.out_of_workspace = true ↔ errorExceeds env tp Rt r.q0) ∧
    ∀ c ∈ r.visited, gradientTest env tp Rt c → c = r.q0
  exhausted : r.success = false →
    r.out_of_workspace = false ∧ r.niter = niter + rem ∧ r.visited.length = rem ∧
    ∀ c ∈ r.visited, ¬ gradientTest env tp Rt c

/-- How the outcome of the last recorded call fixes what the stepper loop returns. -/
def LastCallDecides (env : Kinematics) (fuel n : Nat) (c : IkCall)
    (tr : List IkCall × Option (JointVec × Bool)) : Prop :=
  (c.run env fuel = none → tr.2 = none) ∧
  (∀ r, c.run env fuel = some (r, false) → tr.2 = some (c.seed, false)) ∧
  (∀ r, c.run env fuel = some (r, true) → tr.2 = some (r, true) ∧ tr.1.length = n)

theorem bitLog_spec : ∀ (fuel n : Nat), n ≤ fuel → 1 ≤ n →
    2 ^ bitLog fuel n ≤ n ∧ n < 2 ^ (bitLog fuel n + 1) := by
  intro fuel
  induction fuel with
  | zero => intro n h1 h2; omega
  | succ f ih =>
    intro n h1 h2
    unfold bitLog
    by_cases hn : n < 2
    · rw [if_pos hn]
      simp
      omega
    · rw [if_neg hn]
      obtain ⟨i1, i2⟩ := ih (n / 2) (by omega) (by omega)
      rw [pow_succ] at i2 ⊢
      rw [pow_succ (2 : Nat) (bitLog f (n / 2) + 1), pow_succ]
      constructor <;> omega

/-- The exponent found by floorLog2 brackets the magnitude: 2^e ≤ |x| < 2^(e+1). -/
theorem floorLog2_spec (x : ℚ) (hx : x ≠ 0) :
    (2 : ℚ) ^ floorLog2 x ≤ |x| ∧ |x| < (2 : ℚ) ^ (floorLog2 x + 1) := by
  have hnum : x.num.natAbs ≠ 0 := by
    intro h
    apply hx
    rw [Int.natAbs_eq_zero] at h
    exact Rat.zero_of_num_zero h
  have hden : x.den ≠ 0 := x.den_nz
  obtain ⟨a1, a2⟩ := bitLog_spec x.num.natAbs x.num.natAbs (le_refl _) (by omega)
  obtain ⟨b1, b2⟩ := bitLog_spec x.den x.den (le_refl _) (by omega)
  have habs : |x| = (x.num.natAbs : ℚ) / (x.den : ℚ) := by
    conv_lhs => rw [← Rat.num_div_den x]
    rw [abs_div, Nat.abs_cast, Nat.cast_natAbs, Int.cast_abs]
  have hd : (0 : ℚ) < x.den := by exact_mod_cast Nat.pos_of_ne_zero hden
  have two_ne : (2 : ℚ) ≠ 0 := by norm_num
  have a1q : (2 : ℚ) ^ (bitLog x.num.natAbs x.num.natAbs : ℤ) ≤ (x.num.natAbs : ℚ) := by
    rw [zpow_natCast]
    exact_mod_cast a1
  have a2q : (x.num.natAbs : ℚ) < (2 : ℚ) ^ ((bitLog x.num.natAbs x.num.natAbs : ℤ) + 1) := by
    rw [show ((bitLog x.num.natAbs x.num.natAbs : ℤ) + 1)
      = ((bitLog x.num.natAbs x.num.natAbs + 1 : Nat) : ℤ) by push_cast; ring, zpow_natCast]
    exact_mod_cast a2
  have b1q : (2 : ℚ) ^ (bitLog x.den x.den : ℤ) ≤ (x.den : ℚ) := by
    rw [zpow_natCast]
    exact_mod_cast b1
  have b2q : (x.den : ℚ) < (2 : ℚ) ^ ((bitLog x.den x.den : ℤ) + 1) := by
    rw [show ((bitLog x.den x.den : ℤ) + 1) = ((bitLog x.den x.den + 1 : Nat) : ℤ) by
      push_cast; ring, zpow_natCast]
    exact_mod_cast b2
  have hpB : (0 : ℚ) < (2 : ℚ) ^ (bitLog x.den x.den : ℤ) := by positivity
  have hpB1 : (0 : ℚ) < (2 : ℚ) ^ ((bitLog x.den x.den : ℤ) + 1) := by positivity
  have lower : (2 : ℚ) ^ ((bitLog x.num.natAbs x.num.natAbs : ℤ) - (bitLog x.den x.den : ℤ) - 1)
      ≤ |x| := by
    rw [habs, show (bitLog x.num.natAbs x.num.natAbs : ℤ) - (bitLog x.den x.den : ℤ) - 1
      = (bitLog x.num.natAbs x.num.natAbs : ℤ) - ((bitLog x.den x.den : ℤ) + 1) by ring,
      zpow_sub₀ two_ne]
    exact div_le_div₀ (Nat.cast_nonneg _) a1q hd (le_of_lt b2q)
  have upper : |x| < (2 : ℚ) ^ ((bitLog x.num.natAbs x.num.natAbs : ℤ)
      - (bitLog x.den x.den : ℤ) + 1) := by
    rw [habs, show (bitLog x.num.natAbs x.num.natAbs : ℤ) - (bitLog x.den x.den : ℤ) + 1
      = ((bitLog x.num.natAbs x.num.natAbs : ℤ) + 1) - (bitLog x.den x.den : ℤ) by ring,
      zpow_sub₀ two_ne]
    exact div_lt_div₀ a2q b1q (le_of_lt (by positivity)) hpB
  unfold floorLog2
  split
  · rename_i h
    exact ⟨h, upper⟩
  · rename_i h
    refine ⟨lower, ?_⟩
    rw [sub_add_cancel]
    exact lt_of_not_ge h

theorem floorLog2_unique (x : ℚ) (hx : x ≠ 0) (e : ℤ) (h1 : (2 : ℚ) ^ e ≤ |x|)
    (h2 : |x| < (2 : ℚ) ^ (e + 1)) : floorLog2 x = e := by
  obtain ⟨s1, s2⟩ := floorLog2_spec x hx
  have one_lt : (1 : ℚ) < 2 := by norm_num
  have c1 : e < floorLog2 x + 1 :=
    (zpow_lt_zpow_iff_right₀ one_lt).mp (lt_of_le_of_lt h1 s2)
  have c2 : floorLog2 x < e + 1 :=
    (zpow_lt_zpow_iff_right₀ one_lt).mp (lt_of_le_of_lt s1 h2)
  omega

theorem roundHalfEven_intCast (n : ℤ) : roundHalfEven (n : ℚ) = n := by
  unfold roundHalfEven
  rw [Int.floor_intCast, sub_self, if_pos (by norm_num)]

/-- The rounded integer is within one half of the value. -/
theorem roundHalfEven_near (x : ℚ) : |(roundHalfEven x : ℚ) - x| ≤ 1 / 2 := by
  have h1 := Int.floor_le x
  have h2 := Int.lt_floor_add_one x
  unfold roundHalfEven
  split
  · rw [abs_le]; constructor <;> linarith
  · split
    · push_cast
      rw [abs_le]; constructor <;> linarith
    · split
      · rw [abs_le]; constructor <;> linarith
      · push_cast
        rw [abs_le]; constructor <;> linarith

theorem roundHalfEven_nonpos (x : ℚ) (hx : x ≤ 0) : roundHalfEven x ≤ 0 := by
  have hf : ⌊x⌋ ≤ 0 := by
    have := Int.floor_le x
    have h2 : ((⌊x⌋ : ℤ) : ℚ) ≤ 0 := le_trans this hx
    exact_mod_cast h2
  have hlt : ¬ (x - ⌊x⌋ < 1 / 2) → ⌊x⌋ < 0 := by
    intro h1
    rcases lt_or_eq_of_le hf with h | h
    · exact h
    · exfalso
      apply h1
      rw [h]
      simp only [Int.cast_zero, sub_zero]
      linarith
  unfold roundHalfEven
  split
  · exact hf
  · rename_i h1
    have := hlt h1
    split
    · omega
    · split
      · exact hf
      · omega

/-- Rounding keeps a value that is not positive not positive. -/
theorem roundToBinary_nonpos (p : ℕ) (emin : ℤ) (x : ℚ) (hx : x ≤ 0) :
    roundToBinary p emin x ≤ 0 := by
  unfold roundToBinary
  split
  · exact le_refl _
  · have hu : (0 : ℚ) < 2 ^ (max (floorLog2 x) emin - ((p : ℤ) - 1)) := by positivity
    have h1 : x / 2 ^ (max (floorLog2 x) emin - ((p : ℤ) - 1)) ≤ 0 :=
      div_nonpos_of_nonpos_of_nonneg hx (le_of_lt hu)
    have h2 := roundHalfEven_nonpos _ h1
    have h3 : ((roundHalfEven (x / 2 ^ (max (floorLog2 x) emin - ((p : ℤ) - 1))) : ℤ) : ℚ)
        ≤ 0 := by
      exact_mod_cast h2
    exact mul_nonpos_of_nonpos_of_nonneg h3 (le_of_lt hu)

/-- The result of rounding is within half a spacing of the value. -/
theorem roundToBinary_near (p : ℕ) (emin : ℤ) (x : ℚ) :
    |roundToBinary p emin x - x| ≤ 2 ^ (max (floorLog2 x) emin - ((p : ℤ) - 1)) / 2 := by
  unfold roundToBinary
  split
  · rename_i h
    rw [h]
    simp
    positivity
  · have hu : (0 : ℚ) < 2 ^ (max (floorLog2 x) emin - ((p : ℤ) - 1)) := by positivity
    have h := roundHalfEven_near (x / 2 ^ (max (floorLog2 x) emin - ((p : ℤ) - 1)))
    have e : (roundHalfEven (x / 2 ^ (max (floorLog2 x) emin - ((p : ℤ) - 1))) : ℚ)
        * 2 ^ (max (floorLog2 x) emin - ((p : ℤ) - 1)) - x
        = ((roundHalfEven (x / 2 ^ (max (floorLog2 x) emin - ((p : ℤ) - 1))) : ℚ)
          - x / 2 ^ (max (floorLog2 x) emin - ((p : ℤ) - 1)))
          * 2 ^ (max (floorLog2 x) emin - ((p : ℤ) - 1)) := by
      field_simp
    rw [e, abs_mul, abs_of_pos hu]
    calc _ ≤ 1 / 2 * 2 ^ (max (floorLog2 x) emin - ((p : ℤ) - 1)) :=
          mul_le_mul_of_nonneg_right h (le_of_lt hu)
      _ = _ := by ring

/-- Powers of one half down to 2^-1074 are doubles: rounding leaves them unchanged. -/
theorem toDouble_half_pow (k : Nat) (hk : k ≤ 1074) :
    toDouble ((1 / 2 : ℚ) ^ k) = (1 / 2) ^ k := by
  have hx : (1 / 2 : ℚ) ^ k = (2 : ℚ) ^ (-(k : ℤ)) := by
    rw [zpow_neg, zpow_natCast, one_div, inv_pow]
  have hne : (2 : ℚ) ^ (-(k : ℤ)) ≠ 0 := by positivity
  have two_ne : (2 : ℚ) ≠ 0 := by norm_num
  have hlog : floorLog2 ((2 : ℚ) ^ (-(k : ℤ))) = -(k : ℤ) := by
    apply floorLog2_unique _ hne
    · rw [abs_of_pos (by positivity)]
    · rw [abs_of_pos (by positivity)]
      exact zpow_lt_zpow_right₀ (by norm_num) (by omega)
  rw [hx]
  unfold toDouble roundToBinary
  rw [if_neg hne, hlog]
  obtain ⟨m, hm⟩ : ∃ m : Nat, (m : ℤ) = -(k : ℤ) - (max (-(k : ℤ)) (-1022) - (((53 : Nat) : ℤ) - 1)) := by
    refine ⟨(-(k : ℤ) - (max (-(k : ℤ)) (-1022) - (((53 : Nat) : ℤ) - 1))).toNat, ?_⟩
    rw [Int.toNat_of_nonneg]
    have hk2 : (k : ℤ) ≤ 1074 := by exact_mod_cast hk
    rcases le_total (-(k : ℤ)) (-1022) with h | h
    · rw [max_eq_right h]
      push_cast
      omega
    · rw [max_eq_left h]
      push_cast
      omega
  have hdiv : (2 : ℚ) ^ (-(k : ℤ)) / 2 ^ (max (-(k : ℤ)) (-1022) - (((53 : Nat) : ℤ) - 1))
      = (((2 : ℤ) ^ m : ℤ) : ℚ) := by
    rw [← zpow_sub₀ two_ne, ← hm, zpow_natCast]
    push_cast
    rfl
  rw [hdiv, roundHalfEven_intCast]
  push_cast
  rw [← zpow_natCast, hm, ← zpow_add₀ two_ne]
  congr 1
  ring

/-- Halving 2^-1074 once more underflows: the result rounds to 0. -/
theorem toDouble_underflow : toDouble ((1 / 2 : ℚ) ^ (1074 + 1)) = 0 := by decide!

theorem coeff_zero (tf a b : ℚ) : fifthOrderPolynomialTrajectory tf a b 0 = a := rfl
theorem coeff_one (tf a b : ℚ) : fifthOrderPolynomialTrajectory tf a b 1 = 0 := rfl
theorem coeff_two (tf a b : ℚ) : fifthOrderPolynomialTrajectory tf a b 2 = 0 := rfl
theorem coeff_three (tf a b : ℚ) :
    fifthOrderPolynomialTrajectory tf a b 3 = 10 * (b - a) / tf ^ 3 := rfl
theorem coeff_four (tf a b : ℚ) :
    fifthOrderPolynomialTrajectory tf a b 4 = -15 * (b - a) / tf ^ 4 := rfl
theorem coeff_five (tf a b : ℚ) :
    fifthOrderPolynomialTrajectory tf a b 5 = 6 * (b - a) / tf ^ 5 := rfl

/-- The modelled coefficients meet the six boundary conditions the spec lists. -/
theorem fifthOrder_boundary (tf a b : ℚ) (htf : tf ≠ 0) :
    let c := fifthOrderPolynomialTrajectory tf a b
    c 0 = a ∧ c 1 = 0 ∧ 2 * c 2 = 0 ∧
    c 0 + c 1 * tf + c 2 * tf ^ 2 + c 3 * tf ^ 3 + c 4 * tf ^ 4 + c 5 * tf ^ 5 = b ∧
    c 1 + 2 * c 2 * tf + 3 * c 3 * tf ^ 2 + 4 * c 4 * tf ^ 3 + 5 * c 5 * tf ^ 4 = 0 ∧
    2 * c 2 + 6 * c 3 * tf + 12 * c 4 * tf ^ 2 + 20 * c 5 * tf ^ 3 = 0 := by
  refine ⟨rfl, rfl, by simp [coeff_two], ?_, ?_, ?_⟩ <;>
    simp only [coeff_zero, coeff_one, coeff_two, coeff_three, coeff_four, coeff_five] <;>
    field_simp <;> ring

/-- The six boundary conditions determine the coefficients. -/
theorem fifthOrder_unique (tf a b : ℚ) (htf : tf ≠ 0) (c : Fin 6 → ℚ)
    (h0 : c 0 = a) (h1 : c 1 = 0) (h2 : 2 * c 2 = 0)
    (h3 : c 0 + c 1 * tf + c 2 * tf ^ 2 + c 3 * tf ^ 3 + c 4 * tf ^ 4 + c 5 * tf ^ 5 = b)
    (h4 : c 1 + 2 * c 2 * tf + 3 * c 3 * tf ^ 2 + 4 * c 4 * tf ^ 3 + 5 * c 5 * tf ^ 4 = 0)
    (h5 : 2 * c 2 + 6 * c 3 * tf + 12 * c 4 * tf ^ 2 + 20 * c 5 * tf ^ 3 = 0) :
    c = fifthOrderPolynomialTrajectory tf a b := by
  have h2' : c 2 = 0 := by linarith
  rw [h0, h1, h2'] at h3
  rw [h1, h2'] at h4
  rw [h2'] at h5
  have e3 : c 3 * tf ^ 3 = 10 * (b - a) := by
    have : tf ^ 3 * (c 3 * tf ^ 3 - 10 * (b - a)) = 0 := by
      linear_combination (10 * tf ^ 3) * h3 - (4 * tf ^ 4) * h4 + (tf ^ 5 / 2) * h5
    rcases mul_eq_zero.mp this with h | h
    · exact absurd h (pow_ne_zero 3 htf)
    · linarith
  have e4 : c 4 * tf ^ 4 = -15 * (b - a) := by
    have : tf ^ 3 * (c 4 * tf ^ 4 + 15 * (b - a)) = 0 := by
      linear_combination (-15 * tf ^ 3) * h3 + (7 * tf ^ 4) * h4 - (tf ^ 5) * h5
    rcases mul_eq_zero.mp this with h | h
    · exact absurd h (pow_ne_zero 3 htf)
    · linarith
  have e5 : c 5 * tf ^ 5 = 6 * (b - a) := by
    have : tf ^ 3 * (c 5 * tf ^ 5 - 6 * (b - a)) = 0 := by
      linear_combination (6 * tf ^ 3) * h3 - (3 * tf ^ 4) * h4 + (tf ^ 5 / 2) * h5
    rcases mul_eq_zero.mp this with h | h
    · exact absurd h (pow_ne_zero 3 htf)
    · linarith
  funext i
  fin_cases i
  · exact h0
  · exact h1
  · exact h2'
  · change c 3 = 10 * (b - a) / tf ^ 3
    rw [eq_div_iff (pow_ne_zero 3 htf)]; exact e3
  · change c 4 = -15 * (b - a) / tf ^ 4
    rw [eq_div_iff (pow_ne_zero 4 htf)]; exact e4
  · change c 5 = 6 * (b - a) / tf ^ 5
    rw [eq_div_iff (pow_ne_zero 5 htf)]; exact e5

theorem step_q (t : ℚ) (qf : JointVec) (time : ℚ) (q : JointVec) (i : Fin 6) (ht : t ≠ 0) :
    (trajectoryStep t qf time q).q i = q i + (qf i - q i) * blend (time / t) := by
  simp only [trajectoryStep, coeff_zero, coeff_one, coeff_two, coeff_three, coeff_four,
    coeff_five, blend]
  field_simp
  ring

theorem step_v (t : ℚ) (qf : JointVec) (time : ℚ) (q : JointVec) (i : Fin 6) (ht : t ≠ 0) :
    (trajectoryStep t qf time q).v i
      = (qf i - q i) * (30 * (time / t) ^ 2 * (1 - time / t) ^ 2) / t := by
  simp only [trajectoryStep, coeff_zero, coeff_one, coeff_two, coeff_three, coeff_four,
    coeff_five]
  field_simp
  ring

theorem step_a (t : ℚ) (qf : JointVec) (time : ℚ) (q : JointVec) (i : Fin 6) (ht : t ≠ 0) :
    (trajectoryStep t qf time q).a i
      = (qf i - q i) * (60 * (time / t) * (1 - time / t) * (1 - 2 * (time / t))) / t ^ 2 := by
  simp only [trajectoryStep, coeff_zero, coeff_one, coeff_two, coeff_three, coeff_four,
    coeff_five]
  field_simp
  ring

theorem blend_zero : blend 0 = 0 := by norm_num [blend]
theorem blend_one : blend 1 = 1 := by norm_num [blend]

theorem blend_pos (x : ℚ) (hx : 0 < x) : 0 < blend x := by
  have h : blend x = x ^ 3 * (6 * (x - 5 / 4) ^ 2 + 5 / 8) := by unfold blend; ring
  rw [h]
  have := sq_nonneg (x - 5 / 4)
  positivity

theorem blend_le_one (x : ℚ) (hx : x ≤ 1) (hx0 : 0 ≤ x) : blend x ≤ 1 := by
  have h : 1 - blend x = (1 - x) ^ 3 * (6 * x ^ 2 + 3 * x + 1) := by unfold blend; ring
  have h1 : 0 ≤ (1 - x) ^ 3 := pow_nonneg (by linarith) 3
  have h2 : 0 ≤ 6 * x ^ 2 + 3 * x + 1 := by positivity
  have := mul_nonneg h1 h2
  linarith

theorem maxCoeff_le_iff (v : JointVec) (c : ℚ) : maxCoeff v ≤ c ↔ ∀ i, v i ≤ c := by
  simp only [maxCoeff, max_le_iff]
  constructor
  · rintro ⟨h0, h1, h2, h3, h4, h5⟩ i
    fin_cases i <;> assumption
  · intro h
    exact ⟨h 0, h 1, h 2, h 3, h 4, h 5⟩

theorem le_minCoeff_iff (v : JointVec) (c : ℚ) : c ≤ minCoeff v ↔ ∀ i, c ≤ v i := by
  simp only [minCoeff, le_min_iff]
  constructor
  · rintro ⟨h0, h1, h2, h3, h4, h5⟩ i
    fin_cases i <;> assumption
  · intro h
    exact ⟨h 0, h 1, h 2, h 3, h 4, h 5⟩

/-- The loop guard is false exactly when every joint is within eps of its goal. -/
theorem not_notArrived_iff (q qf : JointVec) :
    ¬ notArrived q qf ↔ ∀ i, |q i - qf i| ≤ eps := by
  unfold notArrived
  rw [not_or, not_lt, not_lt, maxCoeff_le_iff]
  have h : -1 * minCoeff (q - qf) ≤ eps ↔ -eps ≤ minCoeff (q - qf) := by
    constructor <;> intro h <;> linarith
  rw [h, le_minCoeff_iff]
  simp only [Pi.sub_apply, abs_le]
  constructor
  · rintro ⟨h1, h2⟩ i
    exact ⟨h2 i, h1 i⟩
  · intro h
    exact ⟨fun i => (h i).2, fun i => (h i).1⟩

theorem notArrived_iff (q qf : JointVec) : notArrived q qf ↔ ∃ i, eps < |q i - qf i| := by
  rw [← not_iff_not, not_notArrived_iff]
  push_neg
  rfl

theorem arrived_self (qf : JointVec) : ¬ notArrived qf qf := by
  rw [not_notArrived_iff]
  intro i
  simp [eps]

theorem loop_succ (t : ℚ) (qf : JointVec) (dt : ℚ) (fuel : Nat) (q : JointVec) (time : ℚ) :
    trajectoryLoop t qf dt (fuel + 1) q time =
      if notArrived q qf then
        (trajectoryLoop t qf dt fuel (trajectoryStep t qf time q).q (time + dt)).map
          (fun rest => trajectoryStep t qf time q :: rest)
      else some [] := rfl

/-- More fuel never changes a result already reached. -/
theorem loop_mono (t : ℚ) (qf : JointVec) (dt : ℚ) (m : Nat) :
    ∀ (fuel : Nat) (q : JointVec) (time : ℚ) (ss : List Sample),
      trajectoryLoop t qf dt fuel q time = some ss →
      trajectoryLoop t qf dt (fuel + m) q time = some ss := by
  intro fuel
  induction fuel with
  | zero => intro q time ss h; simp [trajectoryLoop] at h
  | succ n ih =>
    intro q time ss h
    rw [show n + 1 + m = (n + m) + 1 by omega, loop_succ]
    rw [loop_succ] at h
    by_cases hc : notArrived q qf
    · rw [if_pos hc] at h ⊢
      rcases Option.map_eq_some'.mp h with ⟨rest, hrest, rfl⟩
      rw [ih _ _ _ hrest]
      rfl
    · rw [if_neg hc] at h ⊢
      exact h

theorem loop_unique (t : ℚ) (qf : JointVec) (dt : ℚ) (f1 f2 : Nat) (q : JointVec) (time : ℚ)
    (a b : List Sample) (ha : trajectoryLoop t qf dt f1 q time = some a)
    (hb : trajectoryLoop t qf dt f2 q time = some b) : a = b := by
  have h1 := loop_mono t qf dt f2 f1 q time a ha
  have h2 := loop_mono t qf dt f1 f2 q time b hb
  rw [Nat.add_comm] at h2
  rw [h1] at h2
  exact Option.some.inj h2

/-- Every sample is the loop body applied to the previous position at the running time,
and the guard held for that previous position. -/
theorem loop_get (t : ℚ) (qf : JointVec) (dt : ℚ) :
    ∀ (fuel : Nat) (q : JointVec) (time : ℚ) (ss : List Sample),
      trajectoryLoop t qf dt fuel q time = some ss →
      (∀ s, ss[0]? = some s → s = trajectoryStep t qf time q ∧ notArrived q qf) ∧
      (∀ (k : Nat) (s s2 : Sample), ss[k]? = some s → ss[k + 1]? = some s2 →
        s2 = trajectoryStep t qf (time + ((k : ℚ) + 1) * dt) s.q ∧ notArrived s.q qf) := by
  intro fuel
  induction fuel with
  | zero => intro q time ss h; simp [trajectoryLoop] at h
  | succ n ih =>
    intro q time ss h
    rw [loop_succ] at h
    by_cases hc : notArrived q qf
    · rw [if_pos hc] at h
      rcases Option.map_eq_some'.mp h with ⟨rest, hrest, rfl⟩
      obtain ⟨ih1, ih2⟩ := ih _ _ _ hrest
      refine ⟨?_, ?_⟩
      · intro s hs
        simp only [List.getElem?_cons_zero, Option.some.injEq] at hs
        exact ⟨hs.symm, hc⟩
      · intro k s s2 hs hs2
        rw [List.getElem?_cons_succ] at hs2
        cases k with
        | zero =>
          simp only [List.getElem?_cons_zero, Option.some.injEq] at hs
          subst hs
          have := ih1 s2 hs2
          simpa using this
        | succ j =>
          rw [List.getElem?_cons_succ] at hs
          have := ih2 j s s2 hs hs2
          rw [show time + ((((j + 1 : Nat) : ℚ)) + 1) * dt = time + dt + ((j : ℚ) + 1) * dt by
            push_cast; ring]
          exact this
    · rw [if_neg hc] at h
      have : ss = [] := (Option.some.inj h).symm
      subst this
      simp

/-- After the last sample sent (or at the start, when none is sent) the guard is false. -/
theorem loop_last_arrived (t : ℚ) (qf : JointVec) (dt : ℚ) :
    ∀ (fuel : Nat) (q : JointVec) (time : ℚ) (ss : List Sample),
      trajectoryLoop t qf dt fuel q time = some ss →
      ¬ notArrived ((ss.getLast?.map Sample.q).getD q) qf := by
  intro fuel
  induction fuel with
  | zero => intro q time ss h; simp [trajectoryLoop] at h
  | succ n ih =>
    intro q time ss h
    rw [loop_succ] at h
    by_cases hc : notArrived q qf
    · rw [if_pos hc] at h
      rcases Option.map_eq_some'.mp h with ⟨rest, hrest, rfl⟩
      have := ih _ _ _ hrest
      cases rest with
      | nil => simpa using this
      | cons r rs =>
        rw [List.getLast?_cons_cons]
        cases hl : (r :: rs).getLast? with
        | none => simp at hl
        | some l =>
          rw [hl] at this
          simpa using this
    · rw [if_neg hc] at h
      have : ss = [] := (Option.some.inj h).symm
      subst this
      simpa using hc

theorem step_at_end (t : ℚ) (qf q : JointVec) (ht : t ≠ 0) :
    (trajectoryStep t qf t q).q = qf := by
  funext i
  rw [step_q t qf t q i ht, div_self ht, blend_one]
  ring

/-- From time k*dt the loop stops within steps - k + 1 passes. -/
theorem loop_terminates (t : ℚ) (qf : JointVec) (n : Nat) (ht : t ≠ 0) (hn : 1 ≤ n) :
    ∀ (m k : Nat), k + m = n → ∀ q : JointVec,
      ∃ ss, trajectoryLoop t qf (t / (n : ℚ)) (m + 2) q ((k : ℚ) * (t / (n : ℚ))) = some ss ∧
        ss.length ≤ m + 1 := by
  have hn0 : (n : ℚ) ≠ 0 := by
    have : (0 : ℚ) < n := by exact_mod_cast hn
    exact ne_of_gt this
  intro m
  induction m with
  | zero =>
    intro k hk q
    have hk2 : k = n := by omega
    subst hk2
    have htime : (k : ℚ) * (t / (k : ℚ)) = t := by field_simp
    rw [htime, loop_succ]
    by_cases hc : notArrived q qf
    · rw [if_pos hc, step_at_end t qf q ht, loop_succ, if_neg (arrived_self qf)]
      exact ⟨_, rfl, by simp⟩
    · rw [if_neg hc]
      exact ⟨_, rfl, by simp⟩
  | succ j ih =>
    intro k hk q
    rw [loop_succ]
    by_cases hc : notArrived q qf
    · rw [if_pos hc]
      obtain ⟨rest, hrest, hlen⟩ := ih (k + 1) (by omega) (trajectoryStep t qf ((k : ℚ) * (t / (n : ℚ))) q).q
      rw [show (k : ℚ) * (t / (n : ℚ)) + t / (n : ℚ) = ((k + 1 : Nat) : ℚ) * (t / (n : ℚ)) by
        push_cast; ring]
      rw [hrest]
      exact ⟨_, rfl, by simp; omega⟩
    · rw [if_neg hc]
      exact ⟨_, rfl, by simp⟩

theorem some_getD_of_isSome {α : Type} (o : Option α) (d : α) (h : o.isSome = true) :
    o = some (o.getD d) := by
  cases o with
  | none => simp at h
  | some x => rfl

/-- For t = 1 and 2, 4 or 8 steps, the values used in the runs evaluated below, the
single-precision clock of the source takes exactly the running times k*t/steps of
trajectoryLoop. -/
theorem floatClock_exact_on_evaluated_runs :
    (∀ k, k < 4 → floatClock 1 2 k = (k : ℚ) * (1 / 2)) ∧
    (∀ k, k < 7 → floatClock 1 4 k = (k : ℚ) * (1 / 4)) ∧
    (∀ k, k < 13 → floatClock 1 8 k = (k : ℚ) * (1 / 8)) := by
  decide!

/-- C1 (evaluation at the failing input): from 0 to 1 in every joint, t = 1, steps = 4, the
positions sent for joint 0 are 0, 53/512, 565/1024, 499961/524288, 1, while the quintic fitted
once to (0, 1, 1) takes the values 0, 53/512, 1/2, 459/512, 1 at the same times k/4: the third
and fourth samples differ because the coefficients are refitted from the position just sent. -/
theorem computeAndSendTrajectory_refits_from_sent_position :
    (computeAndSendTrajectory (fun _ => 0) (fun _ => 1) 1 4 6).map
        (fun ss => ss.map (fun s => s.q 0))
      = some [0, 53 / 512, 565 / 1024, 499961 / 524288, 1] ∧
    (List.range 5).map (fun k => quinticAt 1 0 1 ((k : ℚ) * (1 / 4)))
      = [0, 53 / 512, 1 / 2, 459 / 512, 1] := by
  decide!

/-- On the spec scenario (all joints 0 to 1, duration 2, 100 steps) the loop sends 56 samples:
the refitted coefficients bring the position within eps of the goal long before time 2. -/
theorem scenario_sends_56_samples :
    (computeAndSendTrajectory (fun _ => 0) (fun _ => 1) 2 100 200).map List.length = some 56 := by
  decide!

/-- C2 (evaluation at the failing input): joint 0 moves from 0 to 3/2097152 (about 1.43e-6,
more than eps), t = 1, steps = 4, so dt = 1/4. Every value of the run is a dyadic number with
a short significand, so the doubles and floats of the source take exactly these values. The
first pass publishes the start position, the second 159/2^30; after the third, 1695/2^31, the
gap is about 0.64e-6, within eps, and the loop stops: 3 commands are sent where steps = 4. -/
theorem sends_fewer_commands_than_steps :
    (∃ i, eps < |(0 : JointVec) i - (![3 / 2097152, 0, 0, 0, 0, 0] : JointVec) i|) ∧
    (computeAndSendTrajectory 0 ![3 / 2097152, 0, 0, 0, 0, 0] 1 4 10).map List.length
      = some 3 ∧
    (computeAndSendTrajectory 0 ![3 / 2097152, 0, 0, 0, 0, 0] 1 4 10).map
        (fun ss => (published ss).map (fun c => c 0))
      = some [0, 159 / 1073741824, 1695 / 2147483648] := by
  refine ⟨⟨0, ?_⟩, by decide!, by decide!⟩
  rw [lt_abs]
  right
  norm_num [eps]

theorem step_gap (t : ℚ) (qf : JointVec) (time : ℚ) (q : JointVec) (i : Fin 6) (ht : t ≠ 0) :
    qf i - (trajectoryStep t qf time q).q i = (qf i - q i) * (1 - blend (time / t)) := by
  rw [step_q t qf time q i ht]
  ring

/-- Along a run in which only joint i has to move, every sample keeps the other joints at
their goal and leaves joint i at a fraction between 0 and 1 of the initial gap. -/
theorem run_invariant (qi qf : JointVec) (t : ℚ) (n : Nat) (i : Fin 6) (ht : t ≠ 0)
    (hn : 1 ≤ n) (hothers : ∀ j, j ≠ i → qi j = qf j) (fuel : Nat) (ss : List Sample)
    (h : trajectoryLoop t qf (t / (n : ℚ)) fuel qi 0 = some ss) (hlen : ss.length ≤ n + 1) :
    ∀ (k : Nat) (s : Sample), ss[k]? = some s →
      (∀ j, j ≠ i → s.q j = qf j) ∧
      ∃ θ : ℚ, 0 ≤ θ ∧ θ ≤ 1 ∧ qf i - s.q i = θ * (qf i - qi i) := by
  have hn0 : (0 : ℚ) < n := by exact_mod_cast hn
  obtain ⟨h1, h2⟩ := loop_get t qf _ _ _ _ _ h
  intro k
  induction k with
  | zero =>
    intro s hs
    obtain ⟨rfl, _⟩ := h1 s hs
    refine ⟨?_, 1, by norm_num, le_refl _, ?_⟩
    · intro j hj
      rw [step_q _ _ _ _ _ ht, hothers j hj]
      simp
    · rw [step_gap _ _ _ _ _ ht]
      simp [blend_zero]
  | succ k ih =>
    intro s2 hs2
    have hk : k + 1 < ss.length := by
      by_contra hc
      rw [List.getElem?_eq_none (by omega)] at hs2
      exact Option.noConfusion hs2
    have hprev : ss[k]? = some (ss[k]) := List.getElem?_eq_getElem (by omega)
    obtain ⟨hoth, θ, hθ0, hθ1, hθ⟩ := ih _ hprev
    obtain ⟨rfl, _⟩ := h2 k _ s2 hprev hs2
    have hx : (0 + ((k : ℚ) + 1) * (t / (n : ℚ))) / t = ((k : ℚ) + 1) / n := by
      field_simp
      ring
    have hkn : (k : ℚ) + 1 ≤ n := by exact_mod_cast (by omega : k + 1 ≤ n)
    have hx0 : 0 < ((k : ℚ) + 1) / n := by positivity
    have hx1 : ((k : ℚ) + 1) / n ≤ 1 := by
      rw [div_le_one hn0]
      exact hkn
    have hb1 := blend_le_one _ hx1 (le_of_lt hx0)
    have hb0 := blend_pos _ hx0
    refine ⟨?_, θ * (1 - blend (((k : ℚ) + 1) / n)), ?_, ?_, ?_⟩
    · intro j hj
      rw [step_q _ _ _ _ _ ht, hoth j hj]
      simp
    · exact mul_nonneg hθ0 (by linarith)
    · calc θ * (1 - blend (((k : ℚ) + 1) / n)) ≤ 1 * 1 :=
            mul_le_mul hθ1 (by linarith) (by linarith) (by norm_num)
        _ = 1 := by norm_num
    · rw [step_gap _ _ _ _ _ ht, hx, hθ]
      ring

/-- C4 (amended): in exact arithmetic, when only joint i has to move (t > 0, steps at least
1), the run is finite, the position q computed in each pass (before the cast to float of
send_joint_positions) is strictly closer to the goal in joint i than the one computed in the
pass before, and every such position lies between the start and the goal, so none is on the
far side of the goal. -/
theorem single_joint_monotone_progress (qi qf : JointVec) (t : ℚ) (steps : ℤ) (i : Fin 6)
    (ht : 0 < t) (hs : 1 ≤ steps) (hne : qi i ≠ qf i) (hothers : ∀ j, j ≠ i → qi j = qf j) :
    ∃ ss : List Sample,
      computeAndSendTrajectory qi qf t steps (steps.toNat + 2) = some ss ∧
      (∀ fuel ss2, computeAndSendTrajectory qi qf t steps fuel = some ss2 → ss2 = ss) ∧
      (∀ (k : Nat) (s s2 : Sample), ss[k]? = some s → ss[k + 1]? = some s2 →
        |qf i - s2.q i| < |qf i - s.q i|) ∧
      (∀ s ∈ ss, min (qi i) (qf i) ≤ s.q i ∧ s.q i ≤ max (qi i) (qf i)) := by
  lift steps to ℕ using (by omega)
  have hn : 1 ≤ steps := by exact_mod_cast hs
  have ht0 : t ≠ 0 := ne_of_gt ht
  have hn0 : (0 : ℚ) < steps := by exact_mod_cast hn
  obtain ⟨ss, hss, hlen⟩ := loop_terminates t qf steps ht0 hn steps 0 (by omega) qi
  simp only [Nat.cast_zero, zero_mul] at hss
  have hinv := run_invariant qi qf t steps i ht0 hn hothers _ ss hss hlen
  obtain ⟨_, h2⟩ := loop_get t qf _ _ _ _ _ hss
  refine ⟨ss, ?_, ?_, ?_, ?_⟩
  · unfold computeAndSendTrajectory
    rw [Int.cast_natCast, Int.toNat_ofNat]
    exact hss
  · intro fuel ss2 h
    unfold computeAndSendTrajectory at h
    rw [Int.cast_natCast] at h
    exact loop_unique t qf _ _ _ qi 0 ss2 ss h hss
  · intro k s s2 hs1 hs2
    obtain ⟨hoth, _⟩ := hinv k s hs1
    obtain ⟨rfl, hgo⟩ := h2 k s s2 hs1 hs2
    have hk : k + 1 < ss.length := by
      by_contra hc
      rw [List.getElem?_eq_none (by omega)] at hs2
      exact Option.noConfusion hs2
    have hx : (0 + ((k : ℚ) + 1) * (t / (steps : ℚ))) / t = ((k : ℚ) + 1) / steps := by
      field_simp
      ring
    have hkn : (k : ℚ) + 1 ≤ steps := by exact_mod_cast (by omega : k + 1 ≤ steps)
    have hx0 : 0 < ((k : ℚ) + 1) / steps := by positivity
    have hx1 : ((k : ℚ) + 1) / steps ≤ 1 := by
      rw [div_le_one hn0]
      exact hkn
    have hb1 := blend_le_one _ hx1 (le_of_lt hx0)
    have hb0 := blend_pos _ hx0
    obtain ⟨j, hj⟩ := (notArrived_iff _ _).mp hgo
    have hji : j = i := by
      by_contra hc
      rw [hoth j hc] at hj
      simp [eps] at hj
      linarith
    subst hji
    have hgap : 0 < |qf j - s.q j| := by
      rw [abs_sub_comm]
      have : (0 : ℚ) < eps := by norm_num [eps]
      linarith
    rw [step_gap _ _ _ _ _ ht0, hx, abs_mul,
      abs_of_nonneg (by linarith : (0 : ℚ) ≤ 1 - blend (((k : ℚ) + 1) / steps))]
    nlinarith
  · intro s hs
    obtain ⟨k, hk, rfl⟩ := List.getElem_of_mem hs
    obtain ⟨_, θ, hθ0, hθ1, hθ⟩ := hinv k _ (List.getElem?_eq_getElem hk)
    rcases le_total (qi i) (qf i) with hle | hle
    · rw [min_eq_left hle, max_eq_right hle]
      constructor <;> nlinarith
    · rw [min_eq_right hle, max_eq_left hle]
      constructor <;> nlinarith

/-- C4 (counterexample): joint 0 moves from 3 to 3 + 1/524288 (a gap of about 1.9e-6), t = 1,
steps = 8, so dt = 1/8. The first two passes compute 3 and 3 + 526/2^34, both exact in
double precision; floats near 3 are spaced 2^-22 apart, so both are published as 3: the
second published sample is not closer to the goal than the first. -/
theorem published_samples_repeat :
    (computeAndSendTrajectory ![3, 0, 0, 0, 0, 0] ![3 + 1 / 524288, 0, 0, 0, 0, 0] 1 8 12).map
        (fun ss => (ss.take 2).map (fun s => s.q 0))
      = some [3, 3 + 526 / 17179869184] ∧
    (computeAndSendTrajectory ![3, 0, 0, 0, 0, 0] ![3 + 1 / 524288, 0, 0, 0, 0, 0] 1 8 12).map
        (fun ss => ((published ss).take 2).map (fun c => c 0))
      = some [3, 3] := by
  decide!

/-- C4 (witness): joint 0 moves from 0 to 1 with t = 1 and steps = 4. -/
theorem single_joint_monotone_progress_witness :
    ∃ ss : List Sample,
      computeAndSendTrajectory 0 ![1, 0, 0, 0, 0, 0] 1 4 ((4 : ℤ).toNat + 2) = some ss ∧
      (∀ fuel ss2, computeAndSendTrajectory 0 ![1, 0, 0, 0, 0, 0] 1 4 fuel = some ss2 →
        ss2 = ss) ∧
      (∀ (k : Nat) (s s2 : Sample), ss[k]? = some s → ss[k + 1]? = some s2 →
        |(![1, 0, 0, 0, 0, 0] : JointVec) 0 - s2.q 0|
          < |(![1, 0, 0, 0, 0, 0] : JointVec) 0 - s.q 0|) ∧
      (∀ s ∈ ss, min ((0 : JointVec) 0) ((![1, 0, 0, 0, 0, 0] : JointVec) 0) ≤ s.q 0 ∧
        s.q 0 ≤ max ((0 : JointVec) 0) ((![1, 0, 0, 0, 0, 0] : JointVec) 0)) :=
  single_joint_monotone_progress 0 ![1, 0, 0, 0, 0, 0] 1 4 0 (by norm_num) (by norm_num)
    (by simp) (by
      intro j hj
      fin_cases j
      · exact absurd rfl hj
      all_goals rfl)

theorem two_pi_pos : (0 : ℚ) < 2 * M_PI := by norm_num [M_PI]

theorem lineSearch_succ (env : Kinematics) (tp : Vec3) (Rt : Mat3) (q0 e0 dq : JointVec)
    (fuel : Nat) (alpha : ℚ) :
    lineSearch env tp Rt q0 e0 dq (fuel + 1) alpha =
      if squaredNorm e0 < squaredNorm (e_bar env tp Rt (q0 + alpha • dq)) then
        lineSearch env tp Rt q0 e0 dq fuel (toDouble (alpha * beta))
      else some (q0 + alpha • dq, 1) := rfl

theorem lineSearch_mono (env : Kinematics) (tp : Vec3) (Rt : Mat3) (q0 e0 dq : JointVec)
    (m : Nat) : ∀ (fuel : Nat) (alpha : ℚ) (r : JointVec × ℚ),
      lineSearch env tp Rt q0 e0 dq fuel alpha = some r →
      lineSearch env tp Rt q0 e0 dq (fuel + m) alpha = some r := by
  intro fuel
  induction fuel with
  | zero => intro alpha r h; simp [lineSearch] at h
  | succ n ih =>
    intro alpha r h
    rw [show n + 1 + m = (n + m) + 1 by omega, lineSearch_succ]
    rw [lineSearch_succ] at h
    split at h
    · rename_i hc
      rw [if_pos hc]
      exact ih _ _ h
    · rename_i hc
      rw [if_neg hc]
      exact h

/-- An accepted line search hands back alpha = 1. -/
theorem lineSearch_alpha (env : Kinematics) (tp : Vec3) (Rt : Mat3) (q0 e0 dq : JointVec) :
    ∀ (fuel : Nat) (alpha : ℚ) (r : JointVec × ℚ),
      lineSearch env tp Rt q0 e0 dq fuel alpha = some r → r.2 = 1 := by
  intro fuel
  induction fuel with
  | zero => intro alpha r h; simp [lineSearch] at h
  | succ n ih =>
    intro alpha r h
    rw [lineSearch_succ] at h
    split at h
    · exact ih _ _ h
    · rw [← Option.some.inj h]

theorem solverLoop_zero (env : Kinematics) (tp : Vec3) (Rt : Mat3) (fuel niter : Nat)
    (q0 : JointVec) (alpha : ℚ) :
    solverLoop env tp Rt fuel 0 niter q0 alpha = some ⟨q0, false, false, niter, []⟩ := rfl

theorem solverLoop_succ (env : Kinematics) (tp : Vec3) (Rt : Mat3) (fuel rem niter : Nat)
    (q0 : JointVec) (alpha : ℚ) :
    solverLoop env tp Rt fuel (rem + 1) niter q0 alpha =
      if gradientTest env tp Rt q0 then
        some ⟨q0, true, decide (errorExceeds env tp Rt q0), niter, [q0]⟩
      else
        match lineSearch env tp Rt q0 (e_bar env tp Rt q0) (stepDirection env tp Rt q0)
            fuel alpha with
        | none => none
        | some (q1, alpha1) =>
          (solverLoop env tp Rt fuel rem (niter + 1) q1 alpha1).map
            (fun r => { r with visited := q0 :: r.visited }) := rfl

theorem solverLoop_exit (env : Kinematics) (tp : Vec3) (Rt : Mat3) (fuel : Nat) :
    ∀ (rem niter : Nat) (q0 : JointVec) (alpha : ℚ) (r : SolverRun),
      solverLoop env tp Rt fuel rem niter q0 alpha = some r →
      LoopExit env tp Rt rem niter r := by
  intro rem
  induction rem with
  | zero =>
    intro niter q0 alpha r h
    rw [solverLoop_zero] at h
    have := Option.some.inj h
    subst this
    exact ⟨by simp, by simp, by simp, by simp⟩
  | succ n ih =>
    intro niter q0 alpha r h
    rw [solverLoop_succ] at h
    by_cases hg : gradientTest env tp Rt q0
    · rw [if_pos hg] at h
      have := Option.some.inj h
      subst this
      refine ⟨by simp, by simp, ?_, by simp⟩
      intro _
      refine ⟨by simp, hg, by simp, ?_⟩
      intro c hc _
      simpa using hc
    · rw [if_neg hg] at h
      cases hls : lineSearch env tp Rt q0 (e_bar env tp Rt q0) (stepDirection env tp Rt q0)
          fuel alpha with
      | none => rw [hls] at h; exact Option.noConfusion h
      | some p =>
        obtain ⟨q1, alpha1⟩ := p
        rw [hls] at h
        rcases Option.map_eq_some'.mp h with ⟨r2, hr2, rfl⟩
        have e := ih _ _ _ _ hr2
        refine ⟨?_, ?_, ?_, ?_⟩
        · have := e.visited_le
          simp only [List.length_cons]
          omega
        · have := e.niter_le
          show r2.niter ≤ niter + (n + 1)
          omega
        · intro hs
          obtain ⟨h1, h2, h3, h4⟩ := e.converged hs
          refine ⟨List.mem_cons_of_mem _ h1, h2, h3, ?_⟩
          intro c hc hgc
          rcases List.mem_cons.mp hc with rfl | hc2
          · exact absurd hgc hg
          · exact h4 c hc2 hgc
        · intro hs
          obtain ⟨h1, h2, h3, h4⟩ := e.exhausted hs
          refine ⟨h1, ?_, ?_, ?_⟩
          · show r2.niter = niter + (n + 1)
            omega
          · simp only [List.length_cons]
            omega
          · intro c hc
            rcases List.mem_cons.mp hc with rfl | hc2
            · exact hg
            · exact h4 c hc2

theorem wrapDown_succ (fuel : Nat) (x : ℚ) :
    wrapDown (fuel + 1) x = if x ≥ 2 * M_PI then wrapDown fuel (subTwoPi x) else some x := rfl

theorem wrapUp_succ (fuel : Nat) (x : ℚ) :
    wrapUp (fuel + 1) x = if x ≤ -2 * M_PI then wrapUp fuel (addTwoPi x) else some x := rfl

/-- The first wrapping loop ends below 2*M_PI, after some number of rounded subtractions of
2*M_PI; a value already below 2*M_PI is left as it is. -/
theorem wrapDown_spec : ∀ (fuel : Nat) (x r : ℚ), wrapDown fuel x = some r →
    r < 2 * M_PI ∧ (∃ k : ℕ, r = subTwoPi^[k] x) ∧ (x < 2 * M_PI → r = x) := by
  intro fuel
  induction fuel with
  | zero => intro x r h; simp [wrapDown] at h
  | succ n ih =>
    intro x r h
    rw [wrapDown_succ] at h
    split at h
    · rename_i hc
      obtain ⟨h1, ⟨k, hk⟩, _⟩ := ih _ _ h
      refine ⟨h1, ⟨k + 1, ?_⟩, ?_⟩
      · rw [hk, Function.iterate_succ_apply]
      · intro hx
        exact absurd hc (not_le.mpr hx)
    · rename_i hc
      have := Option.some.inj h
      subst this
      exact ⟨lt_of_not_ge hc, ⟨0, rfl⟩, fun _ => rfl⟩

/-- The second wrapping loop ends above -2*M_PI, after some number of rounded additions of
2*M_PI; it leaves a value below 2*M_PI below 2*M_PI, and a value already above -2*M_PI as it
is. -/
theorem wrapUp_spec : ∀ (fuel : Nat) (x r : ℚ), wrapUp fuel x = some r →
    -(2 * M_PI) < r ∧ (x < 2 * M_PI → r < 2 * M_PI) ∧
    (∃ k : ℕ, r = addTwoPi^[k] x) ∧ (-(2 * M_PI) < x → r = x) := by
  intro fuel
  induction fuel with
  | zero => intro x r h; simp [wrapUp] at h
  | succ n ih =>
    intro x r h
    rw [wrapUp_succ] at h
    split at h
    · rename_i hc
      obtain ⟨h1, h2, ⟨k, hk⟩, _⟩ := ih _ _ h
      refine ⟨h1, ?_, ⟨k + 1, ?_⟩, ?_⟩
      · intro _
        apply h2
        have hle : addTwoPi x ≤ 0 := roundToBinary_nonpos _ _ _ (by linarith)
        have := two_pi_pos
        linarith
      · rw [hk, Function.iterate_succ_apply]
      · intro hx
        exfalso
        linarith
    · rename_i hc
      have := Option.some.inj h
      subst this
      refine ⟨?_, fun hx => hx, ⟨0, rfl⟩, fun _ => rfl⟩
      have := lt_of_not_ge hc
      linarith

theorem normalizeAngle_spec (fuel : Nat) (x r : ℚ) (h : normalizeAngle fuel x = some r) :
    -(2 * M_PI) < r ∧ r < 2 * M_PI ∧
    (∃ kd ku : ℕ, r = addTwoPi^[ku] (subTwoPi^[kd] x)) ∧
    (-(2 * M_PI) < x → x < 2 * M_PI → r = x) := by
  unfold normalizeAngle at h
  rcases Option.bind_eq_some.mp h with ⟨y, hy, hr⟩
  obtain ⟨hy1, ⟨kd, hkd⟩, hy3⟩ := wrapDown_spec _ _ _ hy
  obtain ⟨hr1, hr2, ⟨ku, hku⟩, hr4⟩ := wrapUp_spec _ _ _ hr
  refine ⟨hr1, hr2 hy1, ⟨kd, ku, ?_⟩, ?_⟩
  · rw [hku, hkd]
  · intro hlo hhi
    have hyx := hy3 hhi
    subst hyx
    exact hr4 hlo

theorem wrapDown_mono (m : Nat) : ∀ (fuel : Nat) (x r : ℚ), wrapDown fuel x = some r →
    wrapDown (fuel + m) x = some r := by
  intro fuel
  induction fuel with
  | zero => intro x r h; simp [wrapDown] at h
  | succ n ih =>
    intro x r h
    rw [show n + 1 + m = (n + m) + 1 by omega, wrapDown_succ]
    rw [wrapDown_succ] at h
    split at h
    · rename_i hc
      rw [if_pos hc]
      exact ih _ _ h
    · rename_i hc
      rw [if_neg hc]
      exact h

theorem wrapUp_mono (m : Nat) : ∀ (fuel : Nat) (x r : ℚ), wrapUp fuel x = some r →
    wrapUp (fuel + m) x = some r := by
  intro fuel
  induction fuel with
  | zero => intro x r h; simp [wrapUp] at h
  | succ n ih =>
    intro x r h
    rw [show n + 1 + m = (n + m) + 1 by omega, wrapUp_succ]
    rw [wrapUp_succ] at h
    split at h
    · rename_i hc
      rw [if_pos hc]
      exact ih _ _ h
    · rename_i hc
      rw [if_neg hc]
      exact h

/-- An angle already inside (-2*M_PI, 2*M_PI) passes both wrapping loops unchanged. -/
theorem normalizeAngle_in_range (fuel : Nat) (x : ℚ) (hlo : -(2 * M_PI) < x)
    (hhi : x < 2 * M_PI) : normalizeAngle (fuel + 1) x = some x := by
  unfold normalizeAngle
  rw [wrapDown_succ, if_neg (not_le.mpr hhi), Option.some_bind, wrapUp_succ,
    if_neg (by intro hc; linarith)]

theorem normalizeAngles_spec (fuel : Nat) (q r : JointVec) (h : normalizeAngles fuel q = some r) :
    ∀ i, -(2 * M_PI) < r i ∧ r i < 2 * M_PI ∧
      (∃ kd ku : ℕ, r i = addTwoPi^[ku] (subTwoPi^[kd] (q i))) ∧
      (-(2 * M_PI) < q i → q i < 2 * M_PI → r i = q i) := by
  unfold normalizeAngles at h
  split at h
  · rename_i hall
    have := Option.some.inj h
    subst this
    intro i
    apply normalizeAngle_spec fuel
    simp
  · exact Option.noConfusion h

theorem inverse_kinematics_eq (env : Kinematics) (fuel : Nat) (tp rpy : Vec3) (q0 : JointVec)
    (r : SolverRun)
    (h : solverLoop env tp (env.euler_to_rotation_matrix rpy) fuel max_iter 0 q0 1 = some r) :
    inverse_kinematics_ env fuel tp rpy q0 =
      (normalizeAngles fuel r.q0).map (fun q => (q, r.success && !r.out_of_workspace)) := by
  unfold inverse_kinematics_
  rw [h]
  dsimp only
  cases h2 : normalizeAngles fuel r.q0 <;> simp

theorem inverse_kinematics_some (env : Kinematics) (fuel : Nat) (tp rpy : Vec3) (q0 : JointVec)
    (res : JointVec × Bool) (h : inverse_kinematics_ env fuel tp rpy q0 = some res) :
    ∃ r, solverLoop env tp (env.euler_to_rotation_matrix rpy) fuel max_iter 0 q0 1 = some r ∧
      normalizeAngles fuel r.q0 = some res.1 ∧
      res.2 = (r.success && !r.out_of_workspace) := by
  cases hr : solverLoop env tp (env.euler_to_rotation_matrix rpy) fuel max_iter 0 q0 1 with
  | none =>
    unfold inverse_kinematics_ at h
    rw [hr] at h
    exact Option.noConfusion h
  | some r =>
    rw [inverse_kinematics_eq env fuel tp rpy q0 r hr] at h
    rcases Option.map_eq_some'.mp h with ⟨q, hq, rfl⟩
    exact ⟨r, rfl, hq, rfl⟩

theorem normalizeAngles_eq_some_iff (fuel : Nat) (q r : JointVec) :
    normalizeAngles fuel q = some r ↔ ∀ i, normalizeAngle fuel (q i) = some (r i) := by
  constructor
  · intro h i
    unfold normalizeAngles at h
    split at h
    · have := Option.some.inj h
      subst this
      simp
    · exact Option.noConfusion h
  · intro h
    have hall : ∀ i, (normalizeAngle fuel (q i)).isSome = true := by
      intro i
      rw [h i]
      rfl
    unfold normalizeAngles
    rw [dif_pos hall]
    congr 1
    funext i
    simp [h i]

theorem normalizeAngle_mono (m fuel : Nat) (x r : ℚ) (h : normalizeAngle fuel x = some r) :
    normalizeAngle (fuel + m) x = some r := by
  unfold normalizeAngle at h ⊢
  rcases Option.bind_eq_some.mp h with ⟨y, hy, hr⟩
  rw [wrapDown_mono m _ _ _ hy, Option.some_bind]
  exact wrapUp_mono m _ _ _ hr

theorem normalizeAngles_mono (m fuel : Nat) (q r : JointVec)
    (h : normalizeAngles fuel q = some r) : normalizeAngles (fuel + m) q = some r := by
  rw [normalizeAngles_eq_some_iff] at h ⊢
  intro i
  exact normalizeAngle_mono m fuel _ _ (h i)

theorem solverLoop_mono (env : Kinematics) (tp : Vec3) (Rt : Mat3) (fuel m : Nat) :
    ∀ (rem niter : Nat) (q0 : JointVec) (alpha : ℚ) (r : SolverRun),
      solverLoop env tp Rt fuel rem niter q0 alpha = some r →
      solverLoop env tp Rt (fuel + m) rem niter q0 alpha = some r := by
  intro rem
  induction rem with
  | zero =>
    intro niter q0 alpha r h
    rw [solverLoop_zero] at h ⊢
    exact h
  | succ n ih =>
    intro niter q0 alpha r h
    rw [solverLoop_succ] at h ⊢
    by_cases hg : gradientTest env tp Rt q0
    · rw [if_pos hg] at h ⊢
      exact h
    · rw [if_neg hg] at h ⊢
      cases hls : lineSearch env tp Rt q0 (e_bar env tp Rt q0) (stepDirection env tp Rt q0)
          fuel alpha with
      | none => rw [hls] at h; exact Option.noConfusion h
      | some p =>
        obtain ⟨q1, alpha1⟩ := p
        rw [hls] at h
        rw [lineSearch_mono env tp Rt q0 _ _ m fuel alpha _ hls]
        rcases Option.map_eq_some'.mp h with ⟨r2, hr2, rfl⟩
        dsimp only
        rw [ih _ _ _ _ hr2]
        rfl

/-- More fuel never changes a result the solver already returned. -/
theorem inverse_kinematics_mono (env : Kinematics) (fuel m : Nat) (tp rpy : Vec3)
    (q0 : JointVec) (res : JointVec × Bool)
    (h : inverse_kinematics_ env fuel tp rpy q0 = some res) :
    inverse_kinematics_ env (fuel + m) tp rpy q0 = some res := by
  obtain ⟨r, hr, hq, hflag⟩ := inverse_kinematics_some env fuel tp rpy q0 res h
  rw [inverse_kinematics_eq env (fuel + m) tp rpy q0 r (solverLoop_mono _ _ _ _ m _ _ _ _ _ hr),
    normalizeAngles_mono m fuel _ _ hq, ← hflag]
  rfl

/-- C5: when the solver returns, its flag is true exactly when, at the start of one of its at
most 20 outer iterations, the gradient test passed (gradient norm below 1e-6) and the error
norm was at most 0.1. The flag is false when no visited configuration passes the gradient
test (then all 20 iterations were used up), and when the test passed at a configuration whose
error norm exceeds 0.1. Norm comparisons are on squared norms. -/
theorem success_flag_iff (env : Kinematics) (fuel : Nat) (tp rpy : Vec3) (q0 q : JointVec)
    (flag : Bool) (h : inverse_kinematics_ env fuel tp rpy q0 = some (q, flag)) :
    ∃ r, solverLoop env tp (env.euler_to_rotation_matrix rpy) fuel max_iter 0 q0 1 = some r ∧
      r.visited.length ≤ 20 ∧
      (flag = true ↔ ∃ c ∈ r.visited,
        gradientTest env tp (env.euler_to_rotation_matrix rpy) c ∧
        squaredNorm (e_bar env tp (env.euler_to_rotation_matrix rpy) c) ≤ (1 / 10) ^ 2) ∧
      ((∀ c ∈ r.visited, ¬ gradientTest env tp (env.euler_to_rotation_matrix rpy) c) →
        flag = false ∧ r.niter = 20) ∧
      ((∃ c ∈ r.visited, gradientTest env tp (env.euler_to_rotation_matrix rpy) c ∧
        errorExceeds env tp (env.euler_to_rotation_matrix rpy) c) → flag = false) := by
  obtain ⟨r, hr, _, hflag⟩ := inverse_kinematics_some env fuel tp rpy q0 _ h
  have e := solverLoop_exit env tp _ fuel _ _ _ _ r hr
  have hflag2 : flag = (r.success && !r.out_of_workspace) := hflag
  refine ⟨r, hr, e.visited_le, ?_, ?_, ?_⟩
  · constructor
    · intro hf
      rw [hflag2] at hf
      simp only [Bool.and_eq_true, Bool.not_eq_true'] at hf
      obtain ⟨h1, h2, h3, _⟩ := e.converged hf.1
      refine ⟨r.q0, h1, h2, ?_⟩
      have hne : ¬ errorExceeds env tp (env.euler_to_rotation_matrix rpy) r.q0 := by
        intro hc
        have := h3.mpr hc
        rw [hf.2] at this
        exact Bool.noConfusion this
      exact not_lt.mp hne
    · rintro ⟨c, hc, hg, hsmall⟩
      have hs : r.success = true := by
        by_contra hn
        have hn2 : r.success = false := by simpa using hn
        exact (e.exhausted hn2).2.2.2 c hc hg
      obtain ⟨_, _, h3, h4⟩ := e.converged hs
      have hcq := h4 c hc hg
      subst hcq
      have ho : r.out_of_workspace = false := by
        by_contra hn
        have hn2 : r.out_of_workspace = true := by simpa using hn
        exact absurd (h3.mp hn2) (not_lt.mpr hsmall)
      rw [hflag2, hs, ho]
      rfl
  · intro hall
    have hs : r.success = false := by
      by_contra hn
      have hn2 : r.success = true := by simpa using hn
      obtain ⟨h1, h2, _, _⟩ := e.converged hn2
      exact hall _ h1 h2
    refine ⟨?_, ?_⟩
    · rw [hflag2, hs]
      rfl
    · have := (e.exhausted hs).2.1
      simpa [max_iter] using this
  · rintro ⟨c, hc, hg, hbig⟩
    have hs : r.success = true := by
      by_contra hn
      have hn2 : r.success = false := by simpa using hn
      exact (e.exhausted hn2).2.2.2 c hc hg
    obtain ⟨_, _, h3, h4⟩ := e.converged hs
    have hcq := h4 c hc hg
    subst hcq
    rw [hflag2, hs, h3.mpr hbig]
    rfl

theorem normalizeAngles_in_range (fuel : Nat) (q : JointVec)
    (h : ∀ i, -(2 * M_PI) < q i ∧ q i < 2 * M_PI) : normalizeAngles (fuel + 1) q = some q := by
  rw [normalizeAngles_eq_some_iff]
  intro i
  exact normalizeAngle_in_range fuel (q i) (h i).1 (h i).2

/-- C6 (amended): whatever the flag, every joint angle of the returned configuration lies
strictly between -2*M_PI and 2*M_PI. It is reached from the iterate the outer loop ended with
by repeated subtractions and then additions of 2*M_PI, each rounded to double, and equals that
iterate when the iterate already lies in the interval. -/
theorem returned_angles_in_range (env : Kinematics) (fuel : Nat) (tp rpy : Vec3)
    (q0 q : JointVec) (flag : Bool)
    (h : inverse_kinematics_ env fuel tp rpy q0 = some (q, flag)) :
    ∃ r, solverLoop env tp (env.euler_to_rotation_matrix rpy) fuel max_iter 0 q0 1 = some r ∧
      ∀ i, -(2 * M_PI) < q i ∧ q i < 2 * M_PI ∧
        (∃ kd ku : ℕ, q i = addTwoPi^[ku] (subTwoPi^[kd] (r.q0 i))) ∧
        (-(2 * M_PI) < r.q0 i → r.q0 i < 2 * M_PI → q i = r.q0 i) := by
  obtain ⟨r, hr, hq, _⟩ := inverse_kinematics_some env fuel tp rpy q0 _ h
  exact ⟨r, hr, normalizeAngles_spec fuel _ _ hq⟩

theorem stepperLoop_zero (env : Kinematics) (fuel : Nat) (ss : Fin 6 → ℚ) (ps os : Vec3)
    (q : JointVec) : stepperLoop env fuel ss 0 ps os q = ([], some (q, true)) := rfl

/-- The stepper loop, one sub-step unfolded, by the outcome of its call of the solver. -/
theorem stepperLoop_succ_none (env : Kinematics) (fuel : Nat) (ss : Fin 6 → ℚ) (n : Nat)
    (ps os : Vec3) (q : JointVec)
    (h : inverse_kinematics_ env fuel ![ps 0 + ss 0, ps 1 + ss 1, ps 2 + ss 2]
      ![os 0 + ss 3, os 1 + ss 4, os 2 + ss 5] q = none) :
    stepperLoop env fuel ss (n + 1) ps os q =
      ([⟨![ps 0 + ss 0, ps 1 + ss 1, ps 2 + ss 2],
        ![os 0 + ss 3, os 1 + ss 4, os 2 + ss 5], q⟩], none) := by
  simp only [stepperLoop, h]

theorem stepperLoop_succ_false (env : Kinematics) (fuel : Nat) (ss : Fin 6 → ℚ) (n : Nat)
    (ps os : Vec3) (q r : JointVec)
    (h : inverse_kinematics_ env fuel ![ps 0 + ss 0, ps 1 + ss 1, ps 2 + ss 2]
      ![os 0 + ss 3, os 1 + ss 4, os 2 + ss 5] q = some (r, false)) :
    stepperLoop env fuel ss (n + 1) ps os q =
      ([⟨![ps 0 + ss 0, ps 1 + ss 1, ps 2 + ss 2],
        ![os 0 + ss 3, os 1 + ss 4, os 2 + ss 5], q⟩], some (q, false)) := by
  simp only [stepperLoop, h, if_true]

theorem stepperLoop_succ_true (env : Kinematics) (fuel : Nat) (ss : Fin 6 → ℚ) (n : Nat)
    (ps os : Vec3) (q r : JointVec)
    (h : inverse_kinematics_ env fuel ![ps 0 + ss 0, ps 1 + ss 1, ps 2 + ss 2]
      ![os 0 + ss 3, os 1 + ss 4, os 2 + ss 5] q = some (r, true)) :
    stepperLoop env fuel ss (n + 1) ps os q =
      (⟨![ps 0 + ss 0, ps 1 + ss 1, ps 2 + ss 2],
        ![os 0 + ss 3, os 1 + ss 4, os 2 + ss 5], q⟩ ::
        (stepperLoop env fuel ss n ![ps 0 + ss 0, ps 1 + ss 1, ps 2 + ss 2]
          ![os 0 + ss 3, os 1 + ss 4, os 2 + ss 5] r).1,
       (stepperLoop env fuel ss n ![ps 0 + ss 0, ps 1 + ss 1, ps 2 + ss 2]
          ![os 0 + ss 3, os 1 + ss 4, os 2 + ss 5] r).2) := by
  simp only [stepperLoop, h]
  rfl

theorem stepperLoop_calls (env : Kinematics) (fuel : Nat) (ss : Fin 6 → ℚ) :
    ∀ (n : Nat) (ps os : Vec3) (q : JointVec),
      (stepperLoop env fuel ss n ps os q).1.length ≤ n ∧
      (0 < n → 0 < (stepperLoop env fuel ss n ps os q).1.length) ∧
      (∀ c, (stepperLoop env fuel ss n ps os q).1[0]? = some c → c.seed = q) ∧
      (∀ (k : Nat) (c c2 : IkCall), (stepperLoop env fuel ss n ps os q).1[k]? = some c →
        (stepperLoop env fuel ss n ps os q).1[k + 1]? = some c2 →
        c.run env fuel = some (c2.seed, true)) ∧
      (∀ c, (stepperLoop env fuel ss n ps os q).1.getLast? = some c →
        LastCallDecides env fuel n c (stepperLoop env fuel ss n ps os q)) ∧
      (∀ (k : Nat) (c : IkCall), (stepperLoop env fuel ss n ps os q).1[k]? = some c →
        c.position = ![ps 0 + ((k : ℚ) + 1) * ss 0, ps 1 + ((k : ℚ) + 1) * ss 1,
          ps 2 + ((k : ℚ) + 1) * ss 2] ∧
        c.orientation = ![os 0 + ((k : ℚ) + 1) * ss 3, os 1 + ((k : ℚ) + 1) * ss 4,
          os 2 + ((k : ℚ) + 1) * ss 5]) := by
  intro n
  induction n with
  | zero =>
    intro ps os q
    rw [stepperLoop_zero]
    simp
  | succ n ih =>
    intro ps os q
    cases hik : inverse_kinematics_ env fuel ![ps 0 + ss 0, ps 1 + ss 1, ps 2 + ss 2]
        ![os 0 + ss 3, os 1 + ss 4, os 2 + ss 5] q with
    | none =>
      rw [stepperLoop_succ_none _ _ _ _ _ _ _ hik]
      refine ⟨by simp, by simp, ?_, ?_, ?_, ?_⟩
      · intro c hc
        simp only [List.getElem?_cons_zero, Option.some.injEq] at hc
        rw [← hc]
      · intro k c c2 _ hc2
        simp at hc2
      · intro c hc
        simp only [List.getLast?_singleton, Option.some.injEq] at hc
        subst hc
        refine ⟨fun _ => rfl, ?_, ?_⟩
        · intro r hr
          rw [IkCall.run, hik] at hr
          exact Option.noConfusion hr
        · intro r hr
          rw [IkCall.run, hik] at hr
          exact Option.noConfusion hr
      · intro k c hc
        cases k with
        | zero =>
          simp only [List.getElem?_cons_zero, Option.some.injEq] at hc
          subst hc
          simp
        | succ j => simp at hc
    | some res =>
      obtain ⟨r, flag⟩ := res
      cases flag with
      | false =>
        rw [stepperLoop_succ_false _ _ _ _ _ _ _ _ hik]
        refine ⟨by simp, by simp, ?_, ?_, ?_, ?_⟩
        · intro c hc
          simp only [List.getElem?_cons_zero, Option.some.injEq] at hc
          rw [← hc]
        · intro k c c2 _ hc2
          simp at hc2
        · intro c hc
          simp only [List.getLast?_singleton, Option.some.injEq] at hc
          subst hc
          refine ⟨?_, fun _ _ => rfl, ?_⟩
          · intro hr
            rw [IkCall.run, hik] at hr
            exact Option.noConfusion hr
          · intro r2 hr
            rw [IkCall.run, hik] at hr
            simp at hr
        · intro k c hc
          cases k with
          | zero =>
            simp only [List.getElem?_cons_zero, Option.some.injEq] at hc
            subst hc
            simp
          | succ j => simp at hc
      | true =>
        rw [stepperLoop_succ_true _ _ _ _ _ _ _ _ hik]
        obtain ⟨i1, i2, i3, i4, i5, i6⟩ := ih ![ps 0 + ss 0, ps 1 + ss 1, ps 2 + ss 2]
          ![os 0 + ss 3, os 1 + ss 4, os 2 + ss 5] r
        refine ⟨by simp only [List.length_cons]; omega, by simp, ?_, ?_, ?_, ?_⟩
        · intro c hc
          simp only [List.getElem?_cons_zero, Option.some.injEq] at hc
          rw [← hc]
        · intro k c c2 hc hc2
          rw [List.getElem?_cons_succ] at hc2
          cases k with
          | zero =>
            simp only [List.getElem?_cons_zero, Option.some.injEq] at hc
            subst hc
            rw [i3 c2 hc2]
            exact hik
          | succ j =>
            rw [List.getElem?_cons_succ] at hc
            exact i4 j c c2 hc hc2
        · intro c hc
          cases hrest : (stepperLoop env fuel ss n ![ps 0 + ss 0, ps 1 + ss 1, ps 2 + ss 2]
              ![os 0 + ss 3, os 1 + ss 4, os 2 + ss 5] r).1 with
          | nil =>
            have hn : n = 0 := by
              by_contra hne
              have := i2 (Nat.pos_of_ne_zero hne)
              rw [hrest] at this
              simp at this
            subst hn
            rw [hrest] at hc
            simp only [List.getLast?_singleton, Option.some.injEq] at hc
            subst hc
            rw [stepperLoop_zero]
            refine ⟨?_, ?_, ?_⟩
            · intro hr
              rw [IkCall.run, hik] at hr
              exact Option.noConfusion hr
            · intro r2 hr
              rw [IkCall.run, hik] at hr
              simp at hr
            · intro r2 hr
              rw [IkCall.run, hik] at hr
              simp only [Option.some.injEq, Prod.mk.injEq, and_true] at hr
              subst hr
              simp [hrest]
          | cons d ds =>
            rw [hrest, List.getLast?_cons_cons] at hc
            rw [← hrest] at hc
            obtain ⟨j1, j2, j3⟩ := i5 c hc
            refine ⟨j1, j2, ?_⟩
            intro r2 hr
            obtain ⟨k1, k2⟩ := j3 r2 hr
            refine ⟨k1, ?_⟩
            rw [hrest] at k2
            simp only [List.length_cons] at k2 ⊢
            omega
        · intro k c hc
          cases k with
          | zero =>
            simp only [List.getElem?_cons_zero, Option.some.injEq] at hc
            subst hc
            simp
          | succ j =>
            rw [List.getElem?_cons_succ] at hc
            obtain ⟨p1, p2⟩ := i6 j c hc
            rw [p1, p2]
            constructor
            · funext a
              fin_cases a <;> simp <;> ring
            · funext a
              fin_cases a <;> simp <;> ring

theorem vec6_three (a b c d e f : ℚ) : (![a, b, c, d, e, f] : Fin 6 → ℚ) 3 = d := rfl
theorem vec6_four (a b c d e f : ℚ) : (![a, b, c, d, e, f] : Fin 6 → ℚ) 4 = e := rfl
theorem vec6_five (a b c d e f : ℚ) : (![a, b, c, d, e, f] : Fin 6 → ℚ) 5 = f := rfl

theorem stepper_last_call (env : Kinematics) (fuel : Nat) (tp rpy : Vec3) (q0 : JointVec) :
    ∃ c, (stepperCalls env fuel tp rpy q0).getLast? = some c ∧
      (stepperCalls env fuel tp rpy q0)[(stepperCalls env fuel tp rpy q0).length - 1]? = some c ∧
      LastCallDecides env fuel 4 c
        (inverse_kinematics_without_cache_traced env fuel tp rpy q0) := by
  obtain ⟨_, h2, _, _, h5, _⟩ := stepperLoop_calls env fuel
    ![(tp 0 - env.translation q0 0) / (n_steps : ℚ),
      (tp 1 - env.translation q0 1) / (n_steps : ℚ),
      (tp 2 - env.translation q0 2) / (n_steps : ℚ),
      (rpy 0 - env.matrixToRpy (env.rotation q0) 0) / (n_steps : ℚ),
      (rpy 1 - env.matrixToRpy (env.rotation q0) 1) / (n_steps : ℚ),
      (rpy 2 - env.matrixToRpy (env.rotation q0) 2) / (n_steps : ℚ)]
    4 (env.translation q0) (env.matrixToRpy (env.rotation q0)) q0
  have hpos := h2 (by norm_num)
  cases hl : (stepperCalls env fuel tp rpy q0).getLast? with
  | none =>
    rw [List.getLast?_eq_none_iff] at hl
    have hl2 : (stepperCalls env fuel tp rpy q0).length = 0 := by rw [hl]; rfl
    have hpos2 : 0 < (stepperCalls env fuel tp rpy q0).length := hpos
    omega
  | some c =>
    refine ⟨c, rfl, ?_, h5 c hl⟩
    rw [← List.getLast?_eq_getElem?]
    exact hl

/-- C8: the stepper makes between one and four calls of the solver, the first seeded with q0
and each later one made only after the previous call returned true and seeded with the
configuration that call returned. It returns true exactly when all four calls were made and
each returned true, and then with the configuration of the fourth call. It returns false
exactly when the last call it made returned false (no later call is made), and fails to
return only when its last call did not return. -/
theorem stepper_success_iff (env : Kinematics) (fuel : Nat) (tp rpy : Vec3) (q0 : JointVec) :
    1 ≤ (stepperCalls env fuel tp rpy q0).length ∧
    (stepperCalls env fuel tp rpy q0).length ≤ 4 ∧
    (∀ c, (stepperCalls env fuel tp rpy q0)[0]? = some c → c.seed = q0) ∧
    (∀ (k : Nat) (c c2 : IkCall), (stepperCalls env fuel tp rpy q0)[k]? = some c →
      (stepperCalls env fuel tp rpy q0)[k + 1]? = some c2 →
      c.run env fuel = some (c2.seed, true)) ∧
    ((∃ q, inverse_kinematics_without_cache env fuel tp rpy q0 = some (q, true)) ↔
      (stepperCalls env fuel tp rpy q0).length = 4 ∧
      ∀ c ∈ stepperCalls env fuel tp rpy q0, ∃ r, c.run env fuel = some (r, true)) ∧
    (∀ q, inverse_kinematics_without_cache env fuel tp rpy q0 = some (q, true) ↔
      ∃ c, (stepperCalls env fuel tp rpy q0)[3]? = some c ∧
        c.run env fuel = some (q, true)) ∧
    (∀ q, inverse_kinematics_without_cache env fuel tp rpy q0 = some (q, false) ↔
      ∃ c r, (stepperCalls env fuel tp rpy q0).getLast? = some c ∧
        c.run env fuel = some (r, false) ∧ q = c.seed) ∧
    (inverse_kinematics_without_cache env fuel tp rpy q0 = none ↔
      ∃ c, (stepperCalls env fuel tp rpy q0).getLast? = some c ∧ c.run env fuel = none) := by
  obtain ⟨h1, h2, h3, h4, _, _⟩ := stepperLoop_calls env fuel
    ![(tp 0 - env.translation q0 0) / (n_steps : ℚ),
      (tp 1 - env.translation q0 1) / (n_steps : ℚ),
      (tp 2 - env.translation q0 2) / (n_steps : ℚ),
      (rpy 0 - env.matrixToRpy (env.rotation q0) 0) / (n_steps : ℚ),
      (rpy 1 - env.matrixToRpy (env.rotation q0) 1) / (n_steps : ℚ),
      (rpy 2 - env.matrixToRpy (env.rotation q0) 2) / (n_steps : ℚ)]
    4 (env.translation q0) (env.matrixToRpy (env.rotation q0)) q0
  obtain ⟨last, hlast, hlastidx, hdec⟩ := stepper_last_call env fuel tp rpy q0
  obtain ⟨d1, d2, d3⟩ := hdec
  have hlen1 : 1 ≤ (stepperCalls env fuel tp rpy q0).length := h2 (by norm_num)
  have hlen4 : (stepperCalls env fuel tp rpy q0).length ≤ 4 := h1
  have hres : inverse_kinematics_without_cache env fuel tp rpy q0
      = (inverse_kinematics_without_cache_traced env fuel tp rpy q0).2 := rfl
  have htrue : ∀ q, inverse_kinematics_without_cache env fuel tp rpy q0 = some (q, true) ↔
      ∃ c, (stepperCalls env fuel tp rpy q0)[3]? = some c ∧
        c.run env fuel = some (q, true) := by
    intro q
    constructor
    · intro hq
      rw [hres] at hq
      cases hrun : last.run env fuel with
      | none => rw [d1 hrun] at hq; exact Option.noConfusion hq
      | some res =>
        obtain ⟨r, flag⟩ := res
        cases flag with
        | false =>
          rw [d2 r hrun] at hq
          simp at hq
        | true =>
          obtain ⟨e1, e2⟩ := d3 r hrun
          rw [e1] at hq
          simp only [Option.some.injEq, Prod.mk.injEq, and_true] at hq
          subst hq
          have e3 : (stepperCalls env fuel tp rpy q0).length = 4 := e2
          rw [e3] at hlastidx
          exact ⟨last, hlastidx, hrun⟩
    · rintro ⟨c, hc, hrun⟩
      have hlen : (stepperCalls env fuel tp rpy q0).length = 4 := by
        by_contra hne
        rw [List.getElem?_eq_none (by omega)] at hc
        exact Option.noConfusion hc
      rw [hlen] at hlastidx
      have : c = last := by
        rw [hc] at hlastidx
        exact Option.some.inj hlastidx
      subst this
      rw [hres]
      exact (d3 q hrun).1
  refine ⟨hlen1, hlen4, h3, h4, ?_, htrue, ?_, ?_⟩
  · constructor
    · rintro ⟨q, hq⟩
      obtain ⟨c, hc, hrun⟩ := (htrue q).mp hq
      have hlen : (stepperCalls env fuel tp rpy q0).length = 4 := by
        by_contra hne
        rw [List.getElem?_eq_none (by omega)] at hc
        exact Option.noConfusion hc
      refine ⟨hlen, ?_⟩
      intro c1 hc1
      obtain ⟨k, hk, rfl⟩ := List.getElem_of_mem hc1
      by_cases hk3 : k = 3
      · subst hk3
        rw [List.getElem?_eq_getElem hk] at hc
        rw [Option.some.inj hc]
        exact ⟨q, hrun⟩
      · have hk1 : k + 1 < (stepperCalls env fuel tp rpy q0).length := by omega
        exact ⟨_, h4 k _ _ (List.getElem?_eq_getElem hk) (List.getElem?_eq_getElem hk1)⟩
    · rintro ⟨hlen, hall⟩
      have h3lt : 3 < (stepperCalls env fuel tp rpy q0).length := by omega
      obtain ⟨r, hr⟩ := hall _ (List.getElem_mem h3lt)
      exact ⟨r, (htrue r).mpr ⟨_, List.getElem?_eq_getElem h3lt, hr⟩⟩
  · intro q
    constructor
    · intro hq
      rw [hres] at hq
      cases hrun : last.run env fuel with
      | none => rw [d1 hrun] at hq; exact Option.noConfusion hq
      | some res =>
        obtain ⟨r, flag⟩ := res
        cases flag with
        | false =>
          rw [d2 r hrun] at hq
          simp only [Option.some.injEq, Prod.mk.injEq, and_true] at hq
          exact ⟨last, r, hlast, hrun, hq.symm⟩
        | true =>
          rw [(d3 r hrun).1] at hq
          simp at hq
    · rintro ⟨c, r, hc, hrun, rfl⟩
      rw [hlast] at hc
      have := Option.some.inj hc
      subst this
      rw [hres]
      exact d2 r hrun
  · constructor
    · intro hq
      rw [hres] at hq
      cases hrun : last.run env fuel with
      | none => exact ⟨last, hlast, hrun⟩
      | some res =>
        obtain ⟨r, flag⟩ := res
        cases flag with
        | false =>
          rw [d2 r hrun] at hq
          exact Option.noConfusion hq
        | true =>
          rw [(d3 r hrun).1] at hq
          exact Option.noConfusion hq
    · rintro ⟨c, hc, hrun⟩
      rw [hlast] at hc
      have := Option.some.inj hc
      subst this
      rw [hres]
      exact d1 hrun

/-- C10: the k-th call of the solver made by the stepper (k counted from 0, so sub-step
k + 1) is given the position p0 + (k+1)*(target_position - p0)/4 and the orientation
r0 + (k+1)*(target_orientation_rpy - r0)/4, component by component, where p0 and r0 are the
end-effector position and roll-pitch-yaw at the seed q0; the fourth call is given exactly the
requested target position and orientation. -/
theorem sub_targets_interpolate (env : Kinematics) (fuel : Nat) (tp rpy : Vec3) (q0 : JointVec)
    (k : Nat) (c : IkCall) (hc : (stepperCalls env fuel tp rpy q0)[k]? = some c) :
    (∀ j, c.position j
      = env.translation q0 j + ((k : ℚ) + 1) * ((tp j - env.translation q0 j) / 4)) ∧
    (∀ j, c.orientation j = env.matrixToRpy (env.rotation q0) j
      + ((k : ℚ) + 1) * ((rpy j - env.matrixToRpy (env.rotation q0) j) / 4)) ∧
    (k = 3 → c.position = tp ∧ c.orientation = rpy) := by
  obtain ⟨_, _, _, _, _, h6⟩ := stepperLoop_calls env fuel
    ![(tp 0 - env.translation q0 0) / (n_steps : ℚ),
      (tp 1 - env.translation q0 1) / (n_steps : ℚ),
      (tp 2 - env.translation q0 2) / (n_steps : ℚ),
      (rpy 0 - env.matrixToRpy (env.rotation q0) 0) / (n_steps : ℚ),
      (rpy 1 - env.matrixToRpy (env.rotation q0) 1) / (n_steps : ℚ),
      (rpy 2 - env.matrixToRpy (env.rotation q0) 2) / (n_steps : ℚ)]
    4 (env.translation q0) (env.matrixToRpy (env.rotation q0)) q0
  obtain ⟨p1, p2⟩ := h6 k c hc
  have hp : ∀ j, c.position j
      = env.translation q0 j + ((k : ℚ) + 1) * ((tp j - env.translation q0 j) / 4) := by
    intro j
    rw [p1]
    fin_cases j <;> simp [n_steps]
  have ho : ∀ j, c.orientation j = env.matrixToRpy (env.rotation q0) j
      + ((k : ℚ) + 1) * ((rpy j - env.matrixToRpy (env.rotation q0) j) / 4) := by
    intro j
    rw [p2]
    fin_cases j <;> simp [n_steps, vec6_three, vec6_four, vec6_five]
  refine ⟨hp, ho, ?_⟩
  intro hk
  subst hk
  constructor
  · funext j
    rw [hp j]
    push_cast
    ring
  · funext j
    rw [ho j]
    push_cast
    ring

/-- With alpha = 0 the proposal is the current configuration, its error ties with the current
one and the proposal is accepted. -/
theorem lineSearch_zero_alpha (env : Kinematics) (tp : Vec3) (Rt : Mat3) (q0 dq : JointVec)
    (fuel : Nat) :
    lineSearch env tp Rt q0 (e_bar env tp Rt q0) dq (fuel + 1) 0
      = some (q0 + (0 : ℚ) • dq, 1) := by
  rw [lineSearch_succ, if_neg]
  rw [zero_smul, add_zero]
  exact lt_irrefl _

/-- Started at alpha = (1/2)^k, the line search ends within 1076 - k proposals: alpha is
halved exactly down to 2^-1074, the next halving underflows to 0 and a zero step ties. -/
theorem lineSearch_ends_from (env : Kinematics) (tp : Vec3) (Rt : Mat3) (q0 dq : JointVec) :
    ∀ (m k : Nat), k + m = 1074 →
      ∃ res, lineSearch env tp Rt q0 (e_bar env tp Rt q0) dq (m + 2) ((1 / 2 : ℚ) ^ k)
        = some res := by
  intro m
  induction m with
  | zero =>
    intro k hk
    have hk2 : k = 1074 := by omega
    rw [lineSearch_succ]
    split
    · rw [show (1 / 2 : ℚ) ^ k * beta = (1 / 2) ^ (k + 1) by rw [beta, pow_succ], hk2,
        toDouble_underflow, lineSearch_zero_alpha]
      exact ⟨_, rfl⟩
    · exact ⟨_, rfl⟩
  | succ j ih =>
    intro k hk
    rw [lineSearch_succ]
    split
    · rw [show (1 / 2 : ℚ) ^ k * beta = (1 / 2) ^ (k + 1) by rw [beta, pow_succ],
        toDouble_half_pow (k + 1) (by omega)]
      exact ih (k + 1) (by omega)
    · exact ⟨_, rfl⟩

/-- Every line search started with alpha = 1 ends within 1076 proposals. -/
theorem lineSearch_ends (env : Kinematics) (tp : Vec3) (Rt : Mat3) (q0 dq : JointVec) :
    ∃ res, ∀ fuel, 1076 ≤ fuel →
      lineSearch env tp Rt q0 (e_bar env tp Rt q0) dq fuel 1 = some res := by
  obtain ⟨res, hres⟩ := lineSearch_ends_from env tp Rt q0 dq 1074 0 (by omega)
  rw [pow_zero] at hres
  refine ⟨res, ?_⟩
  intro fuel hf
  obtain ⟨d, rfl⟩ := Nat.exists_eq_add_of_le hf
  exact lineSearch_mono _ _ _ _ _ _ d _ _ _ hres

/-- The outer loop always ends: with fuel for 1076 proposals per line search it returns the
same state whatever the fuel. -/
theorem solverLoop_total (env : Kinematics) (tp : Vec3) (Rt : Mat3) :
    ∀ (rem niter : Nat) (q0 : JointVec),
      ∃ r, ∀ fuel, 1076 ≤ fuel → solverLoop env tp Rt fuel rem niter q0 1 = some r := by
  intro rem
  induction rem with
  | zero =>
    intro niter q0
    exact ⟨_, fun fuel _ => solverLoop_zero _ _ _ _ _ _ _⟩
  | succ n ih =>
    intro niter q0
    by_cases hg : gradientTest env tp Rt q0
    · exact ⟨_, fun fuel _ => by rw [solverLoop_succ, if_pos hg]⟩
    · obtain ⟨res, hres⟩ := lineSearch_ends env tp Rt q0 (stepDirection env tp Rt q0)
      obtain ⟨q1, a1⟩ := res
      have ha : a1 = 1 := lineSearch_alpha _ _ _ _ _ _ _ _ _ (hres 1076 (le_refl _))
      subst ha
      obtain ⟨r2, hr2⟩ := ih (niter + 1) q1
      refine ⟨{ r2 with visited := q0 :: r2.visited }, ?_⟩
      intro fuel hf
      rw [solverLoop_succ, if_neg hg, hres fuel hf]
      dsimp only
      rw [hr2 fuel hf]
      rfl

/-- C9 (amended): the outer loop is always left, after at most 20 iterations, and when it is
left without the gradient test having passed then all 20 iterations were used and no visited
configuration passes the test; every line search ends within 1076 proposals. The solver then
returns exactly when the angle-wrapping loops end, which they do at once when every angle of
the final iterate lies strictly between -2*M_PI and 2*M_PI. -/
theorem solver_outer_loop_always_ends (env : Kinematics) (tp rpy : Vec3) (q0 : JointVec) :
    ∃ r : SolverRun,
      (∀ fuel, 1076 ≤ fuel →
        solverLoop env tp (env.euler_to_rotation_matrix rpy) fuel max_iter 0 q0 1 = some r) ∧
      r.niter ≤ 20 ∧ r.visited.length ≤ 20 ∧
      (r.success = false → r.niter = 20 ∧ r.visited.length = 20 ∧
        ∀ c ∈ r.visited, ¬ gradientTest env tp (env.euler_to_rotation_matrix rpy) c) ∧
      (∀ fuel, 1076 ≤ fuel → inverse_kinematics_ env fuel tp rpy q0
        = (normalizeAngles fuel r.q0).map (fun q => (q, r.success && !r.out_of_workspace))) ∧
      ((∀ i, -(2 * M_PI) < r.q0 i ∧ r.q0 i < 2 * M_PI) → ∀ fuel, 1076 ≤ fuel →
        inverse_kinematics_ env fuel tp rpy q0
          = some (r.q0, r.success && !r.out_of_workspace)) := by
  obtain ⟨r, hr⟩ := solverLoop_total env tp (env.euler_to_rotation_matrix rpy) max_iter 0 q0
  have e := solverLoop_exit env tp _ 1076 _ _ _ _ r (hr 1076 (le_refl _))
  refine ⟨r, hr, by simpa [max_iter] using e.niter_le, e.visited_le, ?_, ?_, ?_⟩
  · intro hs
    obtain ⟨_, h2, h3, h4⟩ := e.exhausted hs
    exact ⟨by simpa [max_iter] using h2, h3, h4⟩
  · intro fuel hf
    exact inverse_kinematics_eq env fuel tp rpy q0 r (hr fuel hf)
  · intro hin fuel hf
    obtain ⟨d, hd⟩ : ∃ d, fuel = d + 1 := ⟨fuel - 1, by omega⟩
    rw [inverse_kinematics_eq env fuel tp rpy q0 r (hr fuel hf), hd,
      normalizeAngles_in_range d r.q0 hin]
    rfl

/-- Subtracting 2*M_PI from 10^17 in double precision gives 10^17 back, so the first wrapping
loop never leaves it. -/
theorem wrapDown_stuck : ∀ fuel : Nat, wrapDown fuel 100000000000000000 = none := by
  intro fuel
  induction fuel with
  | zero => rfl
  | succ n ih =>
    have hge : (100000000000000000 : ℚ) ≥ 2 * M_PI := by norm_num [M_PI]
    have hsame : subTwoPi 100000000000000000 = 100000000000000000 := by decide!
    rw [wrapDown_succ, if_pos hge, hsame]
    exact ih

/-- C9 (counterexample): on the unit-gain slide model with the target at the pose of the seed
and joint 1 of the seed at 10^17 radians (a double), the gradient test passes at once, so the
outer loop is left with the seed as iterate; the wrapping loop for joint 1 then subtracts
2*M_PI from 10^17, which in double precision leaves 10^17, and never ends. The solver returns
for no amount of fuel. -/
theorem wrap_loop_never_ends :
    gradientTest (slideModel 1) 0 ((slideModel 1).euler_to_rotation_matrix 0)
      ![0, 100000000000000000, 0, 0, 0, 0] ∧
    subTwoPi 100000000000000000 = 100000000000000000 ∧
    ¬ ∃ fuel, (inverse_kinematics_ (slideModel 1) fuel 0 0
      ![0, 100000000000000000, 0, 0, 0, 0]).isSome = true := by
  have hg : gradientTest (slideModel 1) 0 ((slideModel 1).euler_to_rotation_matrix 0)
      ![0, 100000000000000000, 0, 0, 0, 0] := by decide!
  refine ⟨hg, by decide!, ?_⟩
  rintro ⟨fuel, h⟩
  have hrun : solverLoop (slideModel 1) 0 ((slideModel 1).euler_to_rotation_matrix 0) fuel
      max_iter 0 ![0, 100000000000000000, 0, 0, 0, 0] 1
      = some ⟨![0, 100000000000000000, 0, 0, 0, 0], true,
          decide (errorExceeds (slideModel 1) 0 ((slideModel 1).euler_to_rotation_matrix 0)
            ![0, 100000000000000000, 0, 0, 0, 0]), 0,
          [![0, 100000000000000000, 0, 0, 0, 0]]⟩ := by
    show solverLoop _ _ _ fuel (19 + 1) 0 _ 1 = _
    rw [solverLoop_succ, if_pos hg]
  rw [inverse_kinematics_eq _ _ _ _ _ _ hrun] at h
  cases hn : normalizeAngles fuel ![0, 100000000000000000, 0, 0, 0, 0] with
  | none =>
    rw [show (⟨![0, 100000000000000000, 0, 0, 0, 0], true,
          decide (errorExceeds (slideModel 1) 0 ((slideModel 1).euler_to_rotation_matrix 0)
            ![0, 100000000000000000, 0, 0, 0, 0]), 0,
          [![0, 100000000000000000, 0, 0, 0, 0]]⟩ : SolverRun).q0
        = ![0, 100000000000000000, 0, 0, 0, 0] from rfl, hn] at h
    exact Bool.noConfusion h
  | some w =>
    have h1 := (normalizeAngles_eq_some_iff _ _ _).mp hn 1
    unfold normalizeAngle at h1
    have hv : (![0, 100000000000000000, 0, 0, 0, 0] : JointVec) 1 = 100000000000000000 := rfl
    rw [hv, wrapDown_stuck fuel] at h1
    exact Option.noConfusion h1

/-- On the slide model with gain -2*lambda and target x = 100, one outer iteration takes the
zero configuration to joint 0 = -10^10 with an error of the same norm (a tie, accepted). -/
theorem tie_step_from_zero (rem niter : Nat) :
    solverLoop (slideModel (-1 / 50000000)) ![100, 0, 0] 1 1 (rem + 1) niter 0 1 =
      (solverLoop (slideModel (-1 / 50000000)) ![100, 0, 0] 1 1 rem (niter + 1)
        ![-10000000000, 0, 0, 0, 0, 0] 1).map
        (fun r => { r with visited := 0 :: r.visited }) := by
  have hg : ¬ gradientTest (slideModel (-1 / 50000000)) ![100, 0, 0] 1 0 := by decide!
  have hacc : ¬ (squaredNorm (e_bar (slideModel (-1 / 50000000)) ![100, 0, 0] 1 0)
      < squaredNorm (e_bar (slideModel (-1 / 50000000)) ![100, 0, 0] 1
        (0 + (1 : ℚ) • stepDirection (slideModel (-1 / 50000000)) ![100, 0, 0] 1 0))) := by
    decide!
  have hq : (0 : JointVec) + (1 : ℚ) • stepDirection (slideModel (-1 / 50000000)) ![100, 0, 0] 1 0
      = ![-10000000000, 0, 0, 0, 0, 0] := by decide!
  rw [solverLoop_succ, if_neg hg, lineSearch_succ, if_neg hacc, hq]

/-- The next outer iteration takes it back to the zero configuration, again with a tie. -/
theorem tie_step_back (rem niter : Nat) :
    solverLoop (slideModel (-1 / 50000000)) ![100, 0, 0] 1 1 (rem + 1) niter
        ![-10000000000, 0, 0, 0, 0, 0] 1 =
      (solverLoop (slideModel (-1 / 50000000)) ![100, 0, 0] 1 1 rem (niter + 1) 0 1).map
        (fun r => { r with visited := ![-10000000000, 0, 0, 0, 0, 0] :: r.visited }) := by
  have hg : ¬ gradientTest (slideModel (-1 / 50000000)) ![100, 0, 0] 1
      ![-10000000000, 0, 0, 0, 0, 0] := by decide!
  have hacc : ¬ (squaredNorm (e_bar (slideModel (-1 / 50000000)) ![100, 0, 0] 1
        ![-10000000000, 0, 0, 0, 0, 0])
      < squaredNorm (e_bar (slideModel (-1 / 50000000)) ![100, 0, 0] 1
        (![-10000000000, 0, 0, 0, 0, 0] + (1 : ℚ) • stepDirection (slideModel (-1 / 50000000))
          ![100, 0, 0] 1 ![-10000000000, 0, 0, 0, 0, 0]))) := by
    decide!
  have hq : (![-10000000000, 0, 0, 0, 0, 0] : JointVec)
      + (1 : ℚ) • stepDirection (slideModel (-1 / 50000000)) ![100, 0, 0] 1
        ![-10000000000, 0, 0, 0, 0, 0] = 0 := by decide!
  rw [solverLoop_succ, if_neg hg, lineSearch_succ, if_neg hacc, hq]

/-- After any even number of remaining iterations the run ends at the zero configuration
without the gradient test ever passing. -/
theorem tie_run_even : ∀ (m niter : Nat), ∃ vis,
    solverLoop (slideModel (-1 / 50000000)) ![100, 0, 0] 1 1 (2 * m) niter 0 1 =
      some ⟨0, false, false, niter + 2 * m, vis⟩ := by
  intro m
  induction m with
  | zero =>
    intro niter
    exact ⟨[], rfl⟩
  | succ k ih =>
    intro niter
    obtain ⟨vis, hvis⟩ := ih (niter + 1 + 1)
    refine ⟨0 :: ![-10000000000, 0, 0, 0, 0, 0] :: vis, ?_⟩
    rw [show 2 * (k + 1) = (2 * k + 1) + 1 by ring, tie_step_from_zero, tie_step_back, hvis]
    simp only [Option.map_some', Option.some.injEq, SolverRun.mk.injEq, true_and, and_true]
    omega

theorem normalizeAngles_zero : normalizeAngles 1 0 = some 0 := by
  rw [normalizeAngles_eq_some_iff]
  intro i
  show normalizeAngle 1 0 = some 0
  decide!

theorem tie_run_side :
    solverLoop (slideModel (-1 / 50000000)) ![0, 5, 0]
      ((slideModel (-1 / 50000000)).euler_to_rotation_matrix 0) 1 max_iter 0 0 1 =
      some ⟨0, true, true, 0, [0]⟩ := by
  have hg : gradientTest (slideModel (-1 / 50000000)) ![0, 5, 0] 1 0 := by decide!
  have he : errorExceeds (slideModel (-1 / 50000000)) ![0, 5, 0] 1 0 := by decide!
  show solverLoop (slideModel (-1 / 50000000)) ![0, 5, 0] 1 1 (19 + 1) 0 0 1 = _
  rw [solverLoop_succ, if_pos hg, decide_eq_true he]

/-- C7 (counterexample): on the slide model with gain -2*lambda and the zero seed, the target
(0, 5, 0) stops the solver at once with the gradient test passed and the error norm above
0.1 (success and out_of_workspace both set), while the target (100, 0, 0) uses up all 20
iterations without the gradient test passing. Both calls return the same value: the zero
configuration with flag false. -/
theorem out_of_workspace_same_value_as_non_convergence :
    ∃ rA rB : SolverRun,
      solverLoop (slideModel (-1 / 50000000)) ![0, 5, 0]
        ((slideModel (-1 / 50000000)).euler_to_rotation_matrix 0) 1 max_iter 0 0 1 = some rA ∧
      rA.success = true ∧ rA.out_of_workspace = true ∧
      solverLoop (slideModel (-1 / 50000000)) ![100, 0, 0]
        ((slideModel (-1 / 50000000)).euler_to_rotation_matrix 0) 1 max_iter 0 0 1 = some rB ∧
      rB.success = false ∧ rB.niter = 20 ∧
      inverse_kinematics_ (slideModel (-1 / 50000000)) 1 ![0, 5, 0] 0 0 = some (0, false) ∧
      inverse_kinematics_ (slideModel (-1 / 50000000)) 1 ![100, 0, 0] 0 0 = some (0, false) := by
  obtain ⟨vis, hvis⟩ := tie_run_even 10 0
  have hB : solverLoop (slideModel (-1 / 50000000)) ![100, 0, 0]
      ((slideModel (-1 / 50000000)).euler_to_rotation_matrix 0) 1 max_iter 0 0 1
      = some ⟨0, false, false, 0 + 2 * 10, vis⟩ := hvis
  refine ⟨_, _, tie_run_side, rfl, rfl, hB, rfl, rfl, ?_, ?_⟩
  · rw [inverse_kinematics_eq _ _ _ _ _ _ tie_run_side]
    show (normalizeAngles 1 0).map _ = _
    rw [normalizeAngles_zero]
    rfl
  · rw [inverse_kinematics_eq _ _ _ _ _ _ hB]
    show (normalizeAngles 1 0).map _ = _
    rw [normalizeAngles_zero]
    rfl

/-- C7 (amended): when the outer loop stops because the gradient test passed while the error
norm exceeds 0.1, the solver returns the wrapped configuration with flag false. The marker
out_of_workspace is not part of the returned pair: any run, of any model, target and seed,
that uses up its iterations and ends at the same configuration returns the same value. -/
theorem out_of_workspace_returns_plain_failure (env : Kinematics) (fuel : Nat) (tp rpy : Vec3)
    (q0 : JointVec) (r : SolverRun)
    (h : solverLoop env tp (env.euler_to_rotation_matrix rpy) fuel max_iter 0 q0 1 = some r)
    (hs : r.success = true) (ho : r.out_of_workspace = true) :
    gradientTest env tp (env.euler_to_rotation_matrix rpy) r.q0 ∧
    errorExceeds env tp (env.euler_to_rotation_matrix rpy) r.q0 ∧
    inverse_kinematics_ env fuel tp rpy q0
      = (normalizeAngles fuel r.q0).map (fun q => (q, false)) ∧
    ∀ (env2 : Kinematics) (tp2 rpy2 : Vec3) (seed2 : JointVec) (r2 : SolverRun),
      solverLoop env2 tp2 (env2.euler_to_rotation_matrix rpy2) fuel max_iter 0 seed2 1
        = some r2 →
      r2.success = false → r2.q0 = r.q0 →
      inverse_kinematics_ env2 fuel tp2 rpy2 seed2 = inverse_kinematics_ env fuel tp rpy q0 := by
  have e := solverLoop_exit env tp _ fuel _ _ _ _ r h
  obtain ⟨_, h2, h3, _⟩ := e.converged hs
  have hmine : inverse_kinematics_ env fuel tp rpy q0
      = (normalizeAngles fuel r.q0).map (fun q => (q, false)) := by
    rw [inverse_kinematics_eq env fuel tp rpy q0 r h, hs, ho]
    rfl
  refine ⟨h2, h3.mp ho, hmine, ?_⟩
  intro env2 tp2 rpy2 seed2 r2 h2r hs2 hq
  rw [hmine, inverse_kinematics_eq env2 fuel tp2 rpy2 seed2 r2 h2r, hs2, hq]
  rfl

/-- C7 (witness): the slide model with gain -2*lambda, target (0, 5, 0), zero seed. -/
theorem out_of_workspace_returns_plain_failure_witness :
    gradientTest (slideModel (-1 / 50000000)) ![0, 5, 0]
      ((slideModel (-1 / 50000000)).euler_to_rotation_matrix 0) (0 : JointVec) ∧
    errorExceeds (slideModel (-1 / 50000000)) ![0, 5, 0]
      ((slideModel (-1 / 50000000)).euler_to_rotation_matrix 0) (0 : JointVec) ∧
    inverse_kinematics_ (slideModel (-1 / 50000000)) 1 ![0, 5, 0] 0 0
      = (normalizeAngles 1 (0 : JointVec)).map (fun q => (q, false)) ∧
    ∀ (env2 : Kinematics) (tp2 rpy2 : Vec3) (seed2 : JointVec) (r2 : SolverRun),
      solverLoop env2 tp2 (env2.euler_to_rotation_matrix rpy2) 1 max_iter 0 seed2 1
        = some r2 →
      r2.success = false → r2.q0 = (0 : JointVec) →
      inverse_kinematics_ env2 1 tp2 rpy2 seed2
        = inverse_kinematics_ (slideModel (-1 / 50000000)) 1 ![0, 5, 0] 0 0 :=
  out_of_workspace_returns_plain_failure (slideModel (-1 / 50000000)) 1 ![0, 5, 0] 0 0
    ⟨0, true, true, 0, [0]⟩ tie_run_side rfl rfl

/-- C5 (witness): the unit-gain slide model reaches x = 1 from the zero seed and returns
true. -/
theorem success_flag_iff_witness :
    demoSolve.2 = true ∧
    ∃ r, solverLoop (slideModel 1) ![1, 0, 0] ((slideModel 1).euler_to_rotation_matrix 0) 5
        max_iter 0 0 1 = some r ∧
      r.visited.length ≤ 20 ∧
      (demoSolve.2 = true ↔ ∃ c ∈ r.visited,
        gradientTest (slideModel 1) ![1, 0, 0] ((slideModel 1).euler_to_rotation_matrix 0) c ∧
        squaredNorm (e_bar (slideModel 1) ![1, 0, 0]
          ((slideModel 1).euler_to_rotation_matrix 0) c) ≤ (1 / 10) ^ 2) ∧
      ((∀ c ∈ r.visited, ¬ gradientTest (slideModel 1) ![1, 0, 0]
          ((slideModel 1).euler_to_rotation_matrix 0) c) →
        demoSolve.2 = false ∧ r.niter = 20) ∧
      ((∃ c ∈ r.visited, gradientTest (slideModel 1) ![1, 0, 0]
          ((slideModel 1).euler_to_rotation_matrix 0) c ∧
        errorExceeds (slideModel 1) ![1, 0, 0]
          ((slideModel 1).euler_to_rotation_matrix 0) c) → demoSolve.2 = false) :=
  ⟨by decide!,
    success_flag_iff (slideModel 1) 5 ![1, 0, 0] 0 0 demoSolve.1 demoSolve.2
      (some_getD_of_isSome _ _ (by decide!))⟩

/-- C6 (counterexample): on the unit-gain slide model with the target at the pose of the seed
and joint 1 of the seed at 100 radians, the outer loop stops at the seed and the wrapping loop
subtracts 2*M_PI fifteen times in double precision. The returned angle for joint 1 is the
double 404776525239735/2^46 (about 5.7522), which differs from 100 by no whole multiple of
2*M_PI: the exact value 100 - 15*2*M_PI is not reached because each subtraction is rounded. -/
theorem wrapped_angle_not_whole_multiple :
    (solverLoop (slideModel 1) 0 ((slideModel 1).euler_to_rotation_matrix 0) 20 max_iter 0
        ![0, 100, 0, 0, 0, 0] 1).map (fun r => r.q0 1) = some 100 ∧
    (inverse_kinematics_ (slideModel 1) 20 0 0 ![0, 100, 0, 0, 0, 0]).map (fun r => r.1 1)
      = some (404776525239735 / 70368744177664) ∧
    ¬ ∃ k : ℤ, (404776525239735 / 70368744177664 : ℚ) - 100 = (k : ℚ) * (2 * M_PI) := by
  refine ⟨by decide!, by decide!, ?_⟩
  rintro ⟨k, hk⟩
  have h2 : (k : ℚ) * 884279719003555 = -13264195785053330 := by
    rw [M_PI] at hk
    linarith
  have h3 : k * 884279719003555 = -13264195785053330 := by exact_mod_cast h2
  omega

/-- C6 (witness): from the seed with joints 0 and 1 at 7 and -7 radians the solver returns
joint 1 wrapped once, to the double nearest to -7 + 2*M_PI. -/
theorem returned_angles_in_range_witness :
    demoWrapped.1 1 = toDouble (-7 + 2 * M_PI) ∧
    ∃ r, solverLoop (slideModel 1) ![1, 0, 0] ((slideModel 1).euler_to_rotation_matrix 0) 5
        max_iter 0 ![7, -7, 0, 0, 0, 0] 1 = some r ∧
      ∀ i, -(2 * M_PI) < demoWrapped.1 i ∧ demoWrapped.1 i < 2 * M_PI ∧
        (∃ kd ku : ℕ, demoWrapped.1 i = addTwoPi^[ku] (subTwoPi^[kd] (r.q0 i))) ∧
        (-(2 * M_PI) < r.q0 i → r.q0 i < 2 * M_PI → demoWrapped.1 i = r.q0 i) :=
  ⟨by decide!,
    returned_angles_in_range (slideModel 1) 5 ![1, 0, 0] 0 ![7, -7, 0, 0, 0, 0]
      demoWrapped.1 demoWrapped.2 (some_getD_of_isSome _ _ (by decide!))⟩

/-- C10 (witness): the fourth call on the unit-gain slide model with target x = 1. -/
theorem sub_targets_interpolate_witness :
    demoFourthCall.position 0 = 1 ∧
    (∀ j, demoFourthCall.position j = (slideModel 1).translation 0 j
      + (((3 : Nat) : ℚ) + 1) * (((![1, 0, 0] : Vec3) j - (slideModel 1).translation 0 j) / 4)) ∧
    (∀ j, demoFourthCall.orientation j
      = (slideModel 1).matrixToRpy ((slideModel 1).rotation 0) j
      + (((3 : Nat) : ℚ) + 1)
        * (((0 : Vec3) j - (slideModel 1).matrixToRpy ((slideModel 1).rotation 0) j) / 4)) ∧
    (3 = 3 → demoFourthCall.position = ![1, 0, 0] ∧ demoFourthCall.orientation = 0) :=
  ⟨by decide!,
    sub_targets_interpolate (slideModel 1) 5 ![1, 0, 0] 0 0 3 demoFourthCall
      (some_getD_of_isSome _ _ (by decide!))⟩

end Ur5lego
